import Mathlib

/-!
# Verification of the MP3-to-text transcription pipeline

A shallow embedding of the core of src/mp3-to-text-gui.py: the text
formatter `format_transcription` (lines 14-60, together with the parts of
Python's re.split / re.search / textwrap.fill that it calls), the SRT time
formatter `format_time` (lines 62-67), and the per-segment processing and
output paths of `transcribe_mp3_to_text_and_srt` (lines 69-230).

Strings are modelled as their character lists; the ASCII fragments of the
Python predicates (str.islower, str.upper, the regex classes) are embedded
directly.  All definitions are structurally recursive (the one loop whose
natural measure is not structural, textwrap's line-filling loop, takes an
explicit fuel that provably suffices), so every function evaluates inside
the kernel on concrete inputs.
-/

/-! ## Character classes

Python's whitespace for str.strip / regex \s / textwrap (ASCII range):
space, tab, newline, carriage return, vertical tab, form feed. -/

/-- The six ASCII whitespace characters recognised by Python's str.strip,
the regex class \s and textwrap's whitespace string. -/
def isPyWs (c : Char) : Bool :=
  c = ' ' || c = '\t' || c = '\n' || c = '\r' || c = '\x0b' || c = '\x0c'

/-- The sentence-terminal punctuation class [.!?] used at lines 31, 45
and 52 of the source. -/
def isPunct (c : Char) : Bool :=
  c = '.' || c = '!' || c = '?'

/-- The regex class \w (ASCII): letters, digits, underscore. -/
def isWordChar (c : Char) : Bool :=
  c.isAlpha || c.isDigit || c = '_'

/-- The regex class [^\d\W] of textwrap's word-separator pattern
(ASCII): letters and underscore. -/
def isLetterChar (c : Char) : Bool :=
  c.isAlpha || c = '_'

/-- The class [\w!"'&.,?] (word_punct) of textwrap's word-separator
pattern. -/
def isWordPunct (c : Char) : Bool :=
  isWordChar c || c = '!' || c = '"' || c = '\'' || c = '&' || c = '.' || c = ',' || c = '?'

/-! ## Python string primitives -/

/-- Python str.strip() with no argument: drop leading and trailing
whitespace (used at line 26 and at lines 53 and 58 of the source). -/
def pyStripList (l : List Char) : List Char :=
  ((l.dropWhile isPyWs).reverse.dropWhile isPyWs).reverse

/-- str.strip() on strings. -/
def pyStrip (s : String) : String :=
  String.mk (pyStripList s.data)

/-- Lines 27-28 and 35-36 of the source: if the string is nonempty and its
first character is lowercase, replace it by its uppercase form. -/
def capFirstList : List Char → List Char
  | [] => []
  | c :: cs => if c.isLower then c.toUpper :: cs else c :: cs

/-- The capitalization step on strings. -/
def capFirst (s : String) : String :=
  String.mk (capFirstList s.data)

/-! ## Sentence splitting

re.split(r'(?<=[.!?])\s+', text), lines 31 and 45 of the source: the text
is cut at every maximal whitespace run whose immediately preceding
character is one of . ! ?; the whitespace of the cut is discarded.  The
scanner below walks the text once; `skip = true` means it is inside the
whitespace run of a cut (so further whitespace is discarded and the next
other character opens the next piece). -/

/-- Is the last character of the accumulated piece sentence-terminal?
(the regex lookbehind; at the start of the text it fails). -/
def lastIsPunct (l : List Char) : Bool :=
  match l.getLast? with
  | some c => isPunct c
  | none => false

/-- One-pass scanner for re.split(r'(?<=[.!?])\s+', ·). -/
def sentGo (skip : Bool) (acc : List Char) : List Char → List (List Char)
  | [] => [acc]
  | c :: rest =>
    if skip then
      if isPyWs c then sentGo true acc rest
      else sentGo false (acc ++ [c]) rest
    else
      if isPyWs c && lastIsPunct acc then
        acc :: sentGo true [] rest
      else
        sentGo false (acc ++ [c]) rest

/-- re.split(r'(?<=[.!?])\s+', ·) on character lists. -/
def splitSentencesList (l : List Char) : List (List Char) :=
  sentGo false [] l

/-- re.split(r'(?<=[.!?])\s+', ·) on strings. -/
def splitSentences (s : String) : List String :=
  (splitSentencesList s.data).map String.mk

/-- re.search(r'[.!?]\s*$', s), line 52 of the source: after discarding
trailing whitespace the string ends in a sentence-terminal character. -/
def endsTerminalList (l : List Char) : Bool :=
  match l.reverse.dropWhile isPyWs with
  | [] => false
  | c :: _ => isPunct c

/-- re.search(r'[.!?]\s*$', ·) on strings. -/
def endsTerminal (s : String) : Bool :=
  endsTerminalList s.data

/-! ## textwrap.fill (line 42 of the source, width 80, default options)

CPython's textwrap with the default options used by the call
textwrap.fill(text, width=80): expand_tabs=True (tabsize 8),
replace_whitespace=True, drop_whitespace=True, break_long_words=True,
break_on_hyphens=True, no indents, max_lines=None. -/

/-- str.expandtabs(8) as called by _munge_whitespace: each tab becomes
spaces up to the next multiple of 8 of the column counter, which newline
and carriage return reset. -/
def expandtabsGo (col : Nat) : List Char → List Char
  | [] => []
  | c :: cs =>
    if c = '\t' then
      List.replicate (8 - col % 8) ' ' ++ expandtabsGo (col + (8 - col % 8)) cs
    else if c = '\n' || c = '\r' then
      c :: expandtabsGo 0 cs
    else
      c :: expandtabsGo (col + 1) cs

/-- TextWrapper._munge_whitespace: expand tabs, then map every remaining
whitespace character to a space. -/
def mungeList (l : List Char) : List Char :=
  (expandtabsGo 0 l).map (fun c => if isPyWs c then ' ' else c)

/-! ### The chunker (TextWrapper._split with wordsep_re)

wordsep_re is the alternation, tried in this order at every position:
  (1) \s+                                   a whitespace run
  (2) (?<=[\w!"'&.,?]) -{2,} (?=\w)         an em-dash run between words
  (3) \S+? followed by one of
      (A) - ((?<=[^\d\W]{2}-)|(?<=[^\d\W]-[^\d\W]-)) (?=[^\d\W]-?[^\d\W])
          (end the word just after a hyphen)
      (B) (?=\s|\Z)                                 end of word
      (C) (?<=[\w!"'&.,?]) (?=-{2,}\w)              stop before an em-dash
The matches tile the string (re.split's empty gap pieces are filtered
out by _split).  The machine below consumes one character per step; its
mode records which alternative is being built.  `prevRev` is the reversed
list of all consumed characters, read by the lookbehinds. -/

/-- The lookahead (?=[^\d\W]-?[^\d\W]) of terminator (A): a letter, an
optional hyphen, a letter. -/
def lookLtHypLt (l : List Char) : Bool :=
  match l with
  | c1 :: c2 :: rest =>
    isLetterChar c1 &&
      (isLetterChar c2 ||
        (c2 = '-' && (match rest with | c3 :: _ => isLetterChar c3 | [] => false)))
  | _ => false

/-- The lookahead (?=-{2,}\w): at least two hyphens whose maximal run is
followed by a word character. -/
def lookDashesWord (l : List Char) : Bool :=
  match l with
  | '-' :: '-' :: rest =>
    (match rest.dropWhile (fun c => c = '-') with
     | c :: _ => isWordChar c
     | [] => false)
  | _ => false

/-- The lookbehind disjunction of terminator (A),
(?<=[^\d\W]{2}-) | (?<=[^\d\W]-[^\d\W]-), evaluated just before the
hyphen is consumed: the characters preceding the hyphen in the original
text (the front of the reversed consumed text, which may reach back
before the current word's start) are either two letters, or
letter-hyphen-letter. -/
def twoLettersBefore (prevRev : List Char) : Bool :=
  match prevRev with
  | a :: '-' :: b :: _ => isLetterChar a && isLetterChar b
  | a :: b :: _ => isLetterChar a && isLetterChar b
  | _ => false

/-- The lookbehind (?<=[\w!"'&.,?]) on the last character of the current
word. -/
def lastIsWordPunct (l : List Char) : Bool :=
  match l.getLast? with
  | some c => isWordPunct c
  | none => false

/-- The state of the chunk scanner: at a chunk boundary, or inside a
whitespace run (1), an em-dash run (2), or a word (3). -/
inductive ChunkMode where
  | start : ChunkMode
  | ws (acc : List Char) : ChunkMode
  | dashes (acc : List Char) : ChunkMode
  | word (acc : List Char) : ChunkMode

/-- At a chunk boundary: decide which alternative the next character
opens (whitespace run, em-dash run if its lookbehind and lookahead hold,
otherwise a word). -/
def chunkStart (prevRev : List Char) (c : Char) (rest : List Char) : ChunkMode :=
  if isPyWs c then ChunkMode.ws [c]
  else if (match prevRev with | p :: _ => isWordPunct p | [] => false)
      && lookDashesWord (c :: rest) then
    ChunkMode.dashes [c]
  else ChunkMode.word [c]

/-- The chunk scanner (one character per step). -/
def chunksGo (prevRev : List Char) (mode : ChunkMode) : List Char → List (List Char)
  | [] =>
    (match mode with
     | ChunkMode.start => []
     | ChunkMode.ws a => [a]
     | ChunkMode.dashes a => [a]
     | ChunkMode.word a => [a])
  | c :: rest =>
    match mode with
    | ChunkMode.start => chunksGo (c :: prevRev) (chunkStart prevRev c rest) rest
    | ChunkMode.ws a =>
      if isPyWs c then chunksGo (c :: prevRev) (ChunkMode.ws (a ++ [c])) rest
      else a :: chunksGo (c :: prevRev) (chunkStart prevRev c rest) rest
    | ChunkMode.dashes a =>
      if c = '-' then chunksGo (c :: prevRev) (ChunkMode.dashes (a ++ [c])) rest
      else a :: chunksGo (c :: prevRev) (chunkStart prevRev c rest) rest
    | ChunkMode.word a =>
      if isPyWs c then
        a :: chunksGo (c :: prevRev) (ChunkMode.ws [c]) rest
      else if c = '-' && twoLettersBefore prevRev && lookLtHypLt rest then
        (a ++ ['-']) :: chunksGo (c :: prevRev) ChunkMode.start rest
      else if lastIsWordPunct a && lookDashesWord (c :: rest) then
        a :: chunksGo (c :: prevRev) (ChunkMode.dashes [c]) rest
      else
        chunksGo (c :: prevRev) (ChunkMode.word (a ++ [c])) rest

/-- TextWrapper._split on a munged text: the chunk list. -/
def splitChunksList (l : List Char) : List (List Char) :=
  chunksGo [] ChunkMode.start l

/-! ### The line filler (TextWrapper._wrap_chunks) -/

/-- The length of a partial line (sum of its chunks' lengths). -/
def lineLen (line : List (List Char)) : Nat :=
  (line.map List.length).sum

/-- The inner while loop of _wrap_chunks: greedily move chunks onto the
current line while the line stays within the width. -/
def popChunks (width curLen : Nat) : List (List Char) → List (List Char) × List (List Char)
  | [] => ([], [])
  | c :: cs =>
    if curLen + c.length ≤ width then
      let p := popChunks width (curLen + c.length) cs
      (c :: p.1, p.2)
    else
      ([], c :: cs)

/-- str.rfind('-', 0, hi) : the index of the last hyphen of the list
(searched on `l.take hi` by the caller), none when absent. -/
def rfindDashGo (i : Nat) (best : Option Nat) : List Char → Option Nat
  | [] => best
  | c :: cs => rfindDashGo (i + 1) (if c = '-' then some i else best) cs

/-- TextWrapper._handle_long_word with break_long_words=True and
break_on_hyphens=True: split the chunk at the last hyphen inside the
remaining space when that hyphen has a non-hyphen before it, otherwise
at the remaining space itself; returns (piece for the line, remainder).
In the source's calling context curLen ≤ width always holds, so the
Nat subtraction agrees with Python's. -/
def handleLongWord (width curLen : Nat) (chunk : List Char) : List Char × List Char :=
  let spaceLeft := if width < 1 then 1 else width - curLen
  let endIdx :=
    if spaceLeft < chunk.length then
      match rfindDashGo 0 none (chunk.take spaceLeft) with
      | some h =>
        if 0 < h && (chunk.take h).any (fun c => !(c = '-')) then h + 1 else spaceLeft
      | none => spaceLeft
    else spaceLeft
  (chunk.take endIdx, chunk.drop endIdx)

/-- drop_whitespace at the end of a line: if the line's last chunk is
entirely whitespace, delete it (CPython deletes exactly one). -/
def dropTrailingWsChunk (line : List (List Char)) : List (List Char) :=
  match line.getLast? with
  | some last => if last.all isPyWs then line.dropLast else line
  | none => line

/-- A measure that strictly decreases on every iteration of the outer
while loop of _wrap_chunks. -/
def chunkMeasure (chunks : List (List Char)) : Nat :=
  (chunks.map List.length).sum + chunks.length

/-- One iteration of the outer while loop of _wrap_chunks on the
already leading-dropped chunk list: greedily fill the line, split an
over-wide chunk at the boundary, drop a trailing whitespace chunk.
Returns (the line's chunks, the remaining chunks). -/
def wrapStep (width : Nat) (chunks : List (List Char)) :
    List (List Char) × List (List Char) :=
  let p := popChunks width 0 chunks
  let q :=
    match p.2 with
    | [] => (p.1, ([] : List (List Char)))
    | r :: rs =>
      if width < r.length then
        let h := handleLongWord width (lineLen p.1) r
        (p.1 ++ [h.1], h.2 :: rs)
      else (p.1, r :: rs)
  (dropTrailingWsChunk q.1, q.2)

/-- The outer while loop of _wrap_chunks.  One fuel unit is one
iteration; each iteration provably consumes at least one unit of
`chunkMeasure`, so the fuel passed by `pyWrapList` suffices.
`linesExist` is CPython's `lines` being nonempty (it gates dropping a
leading whitespace chunk). -/
def wrapGo (fuel : Nat) (width : Nat) (linesExist : Bool) (chunks : List (List Char)) :
    List (List Char) :=
  match fuel with
  | 0 => []
  | fuel + 1 =>
    match chunks with
    | [] => []
    | c :: cs =>
      match (if linesExist && c.all isPyWs then cs else c :: cs) with
      | [] => []
      | d :: ds =>
        let s := wrapStep width (d :: ds)
        if s.1.isEmpty then wrapGo fuel width linesExist s.2
        else s.1.flatten :: wrapGo fuel width true s.2

/-- TextWrapper.wrap: munge, split into chunks, fill lines. -/
def pyWrapList (width : Nat) (l : List Char) : List (List Char) :=
  let chunks := splitChunksList (mungeList l)
  wrapGo (chunkMeasure chunks + 1) width false chunks

/-- textwrap.fill(s, width): the wrapped lines joined by newlines. -/
def pyFillList (width : Nat) (l : List Char) : List Char :=
  List.intercalate ['\n'] (pyWrapList width l)

/-- textwrap.fill on strings. -/
def pyFill (width : Nat) (s : String) : String :=
  String.mk (pyFillList width s.data)

/-! ## The paragraphing pass (lines 46-58 of the source) -/

/-- Line 52 of the source: the condition that flushes the paragraph
after sentence number i (0-based): (i + 1) % 4 == 0 or
re.search(r'[.!?]\s*$', sentence). -/
def breakHere (i : Nat) (s : List Char) : Bool :=
  (i + 1) % 4 == 0 || endsTerminalList s

/-- The loop of lines 49-58: accumulate each sentence (plus a space)
into the paragraph; when `breakHere` holds, append the stripped
paragraph and a blank line to the output; after the loop append the
stripped leftover paragraph if it is nonempty. -/
def paraGo (i : Nat) (fmt para : List Char) : List (List Char) → List Char
  | [] => if para.isEmpty then fmt else fmt ++ pyStripList para
  | s :: rest =>
    let para1 := para ++ s ++ [' ']
    if breakHere i s then
      paraGo (i + 1) (fmt ++ pyStripList para1 ++ ['\n', '\n']) [] rest
    else
      paraGo (i + 1) fmt para1 rest

/-- The whole paragraphing pass on a sentence list. -/
def paragraphPass (ss : List (List Char)) : List Char :=
  paraGo 0 [] [] ss

/-! ## format_transcription (lines 14-60 of the source) -/

/-- The body of format_transcription after the emptiness guard:
strip, capitalize, split into sentences, capitalize each, rejoin with
single spaces, wrap to 80 columns, re-split, paragraph. -/
def formatPipeline (l : List Char) : List Char :=
  let t1 := capFirstList (pyStripList l)
  let sentences := (splitSentencesList t1).map capFirstList
  let t2 := List.intercalate [' '] sentences
  let wrapped := pyFillList 80 t2
  paragraphPass (splitSentencesList wrapped)

/-- format_transcription (lines 14-60): empty input returns the empty
string, otherwise the formatting pipeline runs. -/
def format_transcription (text : String) : String :=
  if text = "" then "" else String.mk (formatPipeline text.data)

/-! ## format_time (lines 62-67 of the source) -/

/-- Python's f-string padding to at least two digits. -/
def pad2 (n : Nat) : String :=
  if n < 10 then "0" ++ toString n else toString n

/-- Python's f-string padding to at least three digits. -/
def pad3 (n : Nat) : String :=
  if n < 10 then "00" ++ toString n
  else if n < 100 then "0" ++ toString n
  else toString n

/-- format_time (lines 62-67): successive divmod by 1000, 60, 60; the
fields are zero-padded and the hours quotient is written as is. -/
def format_time (milliseconds : Nat) : String :=
  let seconds := milliseconds / 1000
  let ms := milliseconds % 1000
  let minutes := seconds / 60
  let secs := seconds % 60
  let hours := minutes / 60
  let mins := minutes % 60
  pad2 hours ++ ":" ++ pad2 mins ++ ":" ++ pad2 secs ++ "," ++ pad3 ms

/-! ## The per-segment loop of transcribe_mp3_to_text_and_srt
(lines 140-184 of the source) -/

/-- The outcome of recognizer.recognize_google on one chunk: a returned
text, an sr.UnknownValueError (line 179), or any other exception
(line 182).  Both exception arms are caught inside the loop. -/
inductive RecResult where
  | ok (text : String) : RecResult
  | unknownValue : RecResult
  | error (msg : String) : RecResult

/-- One entry of subtitle_entries (lines 170-175): the dict with keys
index, start, end, text. -/
structure SubtitleEntry where
  index : Nat
  start : Nat
  stop : Nat
  text : String
deriving DecidableEq, Repr

/-- Lines 149-184: walk the chunks with the running millisecond cursor
`pos` and 0-based loop counter `i`; a chunk whose recognition returns a
nonempty text appends that text to segment_texts and an entry carrying
ordinal i+1 and the chunk's interval to subtitle_entries; every other
outcome (empty text, UnknownValueError, any other exception) leaves
both lists untouched; the cursor always advances by the chunk's
duration. -/
def processChunksGo (pos i : Nat) :
    List (Nat × RecResult) → List String × List SubtitleEntry
  | [] => ([], [])
  | (duration, r) :: rest =>
    let startT := pos
    let endT := pos + duration
    let p := processChunksGo endT (i + 1) rest
    match r with
    | RecResult.ok t =>
      if t ≠ "" then (t :: p.1, { index := i + 1, start := startT, stop := endT, text := t } :: p.2)
      else p
    | RecResult.unknownValue => p
    | RecResult.error _ => p

/-- The loop of lines 149-184 started with cursor 0 and counter 0. -/
def processChunks (chunks : List (Nat × RecResult)) : List String × List SubtitleEntry :=
  processChunksGo 0 0 chunks

/-- Lines 150-154 in isolation: the (start, end) interval computed for
every chunk from the running cursor, regardless of recognition. -/
def chunkIntervals (pos : Nat) : List Nat → List (Nat × Nat)
  | [] => []
  | d :: ds => (pos, pos + d) :: chunkIntervals (pos + d) ds

/-! ## The output paths of transcribe_mp3_to_text_and_srt
(lines 186-230 of the source) -/

/-- The sentinel written when no segment was recognized (lines 210 and
213). -/
def sentinelText : String :=
  "No speech detected in the audio file."

/-- The serialization of one subtitle entry (lines 201-203). -/
def srtEntryLines (e : SubtitleEntry) : String :=
  toString e.index ++ "\n" ++ format_time e.start ++ " --> " ++ format_time e.stop
    ++ "\n" ++ e.text ++ "\n\n"

/-- The transcript file's content (lines 186-196 / 208-210): the
formatted joined texts when any segment was recognized, else the
sentinel string. -/
def transcriptFile (texts : List String) : String :=
  if texts ≠ [] then format_transcription (String.intercalate " " texts)
  else sentinelText

/-- The SRT file's content (lines 198-203 / 212-213): the serialized
entries when any segment was recognized, else the single sentinel
entry. -/
def srtFile (texts : List String) (entries : List SubtitleEntry) : String :=
  if texts ≠ [] then String.join (entries.map srtEntryLines)
  else "1\n00:00:00,000 --> 00:00:01,000\nNo speech detected in the audio file.\n"

/-- What can vary between runs of the pipeline after the chunk
directory is created: the chunks' durations and recognition outcomes,
and whether writing the output files raises an IOError. -/
structure RunEnv where
  chunks : List (Nat × RecResult)
  writesOk : Bool

/-- The observable outcome of one run of transcribe_mp3_to_text_and_srt:
the returned boolean, whether temp_audio_chunks was removed before
returning, and the written file contents. -/
structure RunResult where
  success : Bool
  tempDirRemoved : Bool
  txtContent : Option String
  srtContent : Option String
deriving DecidableEq

/-- Lines 81-230: after the temp_audio_chunks directory is created
(lines 121-124) and the chunks are processed (lines 149-184), the
outputs are written (lines 186-216).  When the writes succeed, the
cleanup of lines 219-221 removes the directory and line 225 returns
True.  When a write raises, control jumps to the handler at line 227,
which returns False without reaching the cleanup, so the directory
survives. -/
def pipelineRun (env : RunEnv) : RunResult :=
  let p := processChunks env.chunks
  if env.writesOk then
    { success := true
      tempDirRemoved := true
      txtContent := some (transcriptFile p.1)
      srtContent := some (srtFile p.1 p.2) }
  else
    { success := false
      tempDirRemoved := false
      txtContent := none
      srtContent := none }

/-! ## Spec-side notions

Definitions below follow the specification's words, for the claims that
compare the code against them: the whitespace-separated token sequence
("equal modulo whitespace"), the paragraph grouping described by the
spec, and the hypotheses of the idempotence claim. -/

/-- The maximal whitespace-free runs of a character list, in order: the
formal reading of "equal modulo whitespace". -/
def tokensGo (acc : List Char) : List Char → List (List Char)
  | [] => if acc.isEmpty then [] else [acc]
  | c :: rest =>
    if isPyWs c then
      if acc.isEmpty then tokensGo [] rest else acc :: tokensGo [] rest
    else
      tokensGo (acc ++ [c]) rest

/-- The token sequence of a character list. -/
def tokensList (l : List Char) : List (List Char) :=
  tokensGo [] l

/-- The token sequence of a string. -/
def tokensOf (s : String) : List String :=
  (tokensList s.data).map String.mk

/-- Spec-side paragraph grouping: cut the sentence list after every
sentence whose index satisfies the break condition; returns the
completed groups and the trailing incomplete group. -/
def specGroups (i : Nat) (group : List (List Char)) :
    List (List Char) → List (List (List Char)) × List (List Char)
  | [] => ([], group)
  | s :: rest =>
    if (i + 1) % 4 == 0 || endsTerminalList s then
      let p := specGroups (i + 1) [] rest
      ((group ++ [s]) :: p.1, p.2)
    else
      specGroups (i + 1) (group ++ [s]) rest

/-- Spec-side rendering of one paragraph group: its sentences each
followed by a space, concatenated, stripped. -/
def renderGroup (g : List (List Char)) : List Char :=
  pyStripList (g.map (fun s => s ++ [' '])).flatten

/-- Spec-side paragraphing: every completed group stripped and followed
by a blank line, then the trailing group stripped (when present). -/
def specParagraphs (ss : List (List Char)) : List Char :=
  let p := specGroups 0 [] ss
  (p.1.map (fun g => renderGroup g ++ ['\n', '\n'])).flatten
    ++ (if p.2.isEmpty then [] else renderGroup p.2)

/-- The split of a character list at newlines (for the "already wrapped
to at most 80 columns" hypothesis). -/
def splitNlGo (acc : List Char) : List Char → List (List Char)
  | [] => [acc]
  | c :: rest => if c = '\n' then acc :: splitNlGo [] rest else splitNlGo (acc ++ [c]) rest

/-- Every newline-separated line of the string has length at most n. -/
def linesLe (n : Nat) (s : String) : Bool :=
  (splitNlGo [] s.data).all (fun l => l.length ≤ n)

/-- The string contains a blank line (an empty newline-separated line),
i.e. two adjacent newlines or a leading or trailing newline. -/
def hasBlankLine (s : String) : Bool :=
  (splitNlGo [] s.data).any (fun l => l.isEmpty) && s.data.any (fun c => c = '\n')

/-- The two capitalization steps of format_transcription (lines 26-28
and 33-36) change nothing: the input is already capitalized. -/
def alreadyCapitalized (s : String) : Bool :=
  capFirstList (pyStripList s.data) = pyStripList s.data &&
    (splitSentencesList (pyStripList s.data)).map capFirstList
      = splitSentencesList (pyStripList s.data)

/-- The string contains no hyphen. -/
def noDash (s : String) : Bool :=
  s.data.all (fun c => !(c = '-'))

/-- The trailing-whitespace trim (the right half of str.strip), used to
reason about the last visible character of accumulated paragraphs. -/
def trimRightList (l : List Char) : List Char :=
  (l.reverse.dropWhile isPyWs).reverse

/-- The maximal uniform runs (whitespace / non-whitespace) of a
character list: what textwrap's chunker computes on hyphen-free text.
`inWs` records the kind of the run being accumulated in `acc`. -/
def runsGo (inWs : Bool) (acc : List Char) : List Char → List (List Char)
  | [] => [acc]
  | c :: rest =>
    if isPyWs c = inWs then runsGo inWs (acc ++ [c]) rest
    else acc :: runsGo (isPyWs c) [c] rest

/-- The run decomposition of a character list. -/
def runsList : List Char → List (List Char)
  | [] => []
  | c :: rest => runsGo (isPyWs c) [c] rest

/-- The chunks that contain a visible character (the words the line
filler must keep intact). -/
def wordChunks (chs : List (List Char)) : List (List Char) :=
  chs.filter (fun r => r.any fun c => !isPyWs c)

/-! ## Helper lemmas for the per-segment loop -/

/-- The interval list has one interval per duration. -/
theorem chunkIntervals_length (ds : List Nat) :
    ∀ pos, (chunkIntervals pos ds).length = ds.length := by
  induction ds with
  | nil => intro pos; rfl
  | cons d ds ih => intro pos; simp [chunkIntervals, ih]

/-- The i-th interval starts at the cursor plus the sum of the first i
durations and ends at the cursor plus the sum of the first i+1. -/
theorem chunkIntervals_get (ds : List Nat) :
    ∀ pos i, i < ds.length →
      (chunkIntervals pos ds)[i]? =
        some (pos + (ds.take i).sum, pos + (ds.take (i + 1)).sum) := by
  induction ds with
  | nil => intro pos i h; exact absurd h (Nat.not_lt_zero i)
  | cons d ds ih =>
    intro pos i h
    cases i with
    | zero => simp [chunkIntervals]
    | succ i =>
      have hi : i < ds.length := Nat.lt_of_succ_lt_succ h
      simp only [chunkIntervals, List.getElem?_cons_succ, ih (pos + d) i hi,
        List.take_succ_cons, List.sum_cons]
      rw [Nat.add_assoc, Nat.add_assoc]

/-- The transcript list is the pointwise selection of the chunks whose
recognition returned a nonempty text: no outcome of one chunk affects
another chunk's contribution. -/
theorem processChunksGo_fst (chunks : List (Nat × RecResult)) :
    ∀ pos i, (processChunksGo pos i chunks).1 = chunks.filterMap (fun c =>
      match c.2 with
      | RecResult.ok t => if t ≠ "" then some t else none
      | RecResult.unknownValue => none
      | RecResult.error _ => none) := by
  induction chunks with
  | nil => intro pos i; rfl
  | cons c rest ih =>
    intro pos i
    obtain ⟨d, r⟩ := c
    cases r with
    | ok t =>
      by_cases ht : t = ""
      · subst ht; simp [processChunksGo, ih]
      · simp [processChunksGo, ht, ih]
    | unknownValue => simp [processChunksGo, ih]
    | error m => simp [processChunksGo, ih]

/-- A chunk whose recognition returns the empty string is processed
exactly like one that raised UnknownValueError. -/
theorem processChunksGo_ok_empty (pre : List (Nat × RecResult)) (d : Nat)
    (post : List (Nat × RecResult)) :
    ∀ pos i, processChunksGo pos i (pre ++ (d, RecResult.ok "") :: post) =
      processChunksGo pos i (pre ++ (d, RecResult.unknownValue) :: post) := by
  induction pre with
  | nil => intro pos i; simp [processChunksGo]
  | cons c rest ih =>
    intro pos i
    obtain ⟨d0, r0⟩ := c
    cases r0 with
    | ok t => simp [processChunksGo, ih]
    | unknownValue => simp [processChunksGo, ih]
    | error m => simp [processChunksGo, ih]

/-- When no chunk's recognition returns a text, both output lists stay
empty. -/
theorem processChunksGo_none (chunks : List (Nat × RecResult))
    (h : ∀ c ∈ chunks, c.2 = RecResult.unknownValue ∨ ∃ m, c.2 = RecResult.error m) :
    ∀ pos i, processChunksGo pos i chunks = ([], []) := by
  induction chunks with
  | nil => intro pos i; rfl
  | cons c rest ih =>
    intro pos i
    obtain ⟨d, r⟩ := c
    have hc := h (d, r) (List.mem_cons_self _ _)
    have hrest : ∀ c ∈ rest, c.2 = RecResult.unknownValue ∨ ∃ m, c.2 = RecResult.error m :=
      fun c hcm => h c (List.mem_cons_of_mem _ hcm)
    rcases hc with hu | ⟨m, hm⟩
    · simp only at hu
      subst hu
      simp [processChunksGo, ih hrest]
    · simp only at hm
      subst hm
      simp [processChunksGo, ih hrest]

/-! ## Claim C1 -/

/-- C1: in the three-segment scenario where segment 2's recognition
raises a service error while 1 and 3 return nonempty texts, processing
continues: the transcript list is exactly the two recognized texts and
the subtitle track carries exactly the ordinals 1 and 3 with their
original intervals; and in general, the transcript list is a pointwise
selection over the chunks, so one segment's failure discards no other
segment's outcome. -/
theorem c1_partial_failure_isolated :
    (∀ (d1 d2 d3 : Nat) (t1 t3 msg : String), t1 ≠ "" → t3 ≠ "" →
      processChunks [(d1, RecResult.ok t1), (d2, RecResult.error msg), (d3, RecResult.ok t3)] =
        ([t1, t3],
          [{ index := 1, start := 0, stop := d1, text := t1 },
           { index := 3, start := d1 + d2, stop := d1 + d2 + d3, text := t3 }])) ∧
    (∀ chunks : List (Nat × RecResult),
      (processChunks chunks).1 = chunks.filterMap (fun c =>
        match c.2 with
        | RecResult.ok t => if t ≠ "" then some t else none
        | RecResult.unknownValue => none
        | RecResult.error _ => none)) := by
  constructor
  · intro d1 d2 d3 t1 t3 msg h1 h3
    simp [processChunks, processChunksGo, h1, h3, Nat.add_assoc]
  · intro chunks
    exact processChunksGo_fst chunks 0 0

/-- C1 witness: the scenario at concrete durations and texts. -/
theorem c1_partial_failure_isolated_witness :
    ("hello" : String) ≠ "" ∧ ("world" : String) ≠ "" ∧
      processChunks
          [(400, RecResult.ok "hello"), (300, RecResult.error "service"),
            (200, RecResult.ok "world")] =
        (["hello", "world"],
          [{ index := 1, start := 0, stop := 400, text := "hello" },
           { index := 3, start := 700, stop := 900, text := "world" }]) :=
  ⟨by decide, by decide,
    c1_partial_failure_isolated.1 400 300 200 "hello" "world" "service"
      (by decide) (by decide)⟩

/-! ## Claim C2 -/

/-- C2: the timing computation assigns segment i (0-based here) the
interval from the sum of the first i durations to the sum of the first
i+1, for every duration sequence: the first interval starts at 0 and
each interval starts where the previous ended; the length equation
covers N = 0 and N = 1. -/
theorem c2_cumulative_intervals (ds : List Nat) :
    (chunkIntervals 0 ds).length = ds.length ∧
      ∀ i, i < ds.length →
        (chunkIntervals 0 ds)[i]? = some ((ds.take i).sum, (ds.take (i + 1)).sum) := by
  refine ⟨chunkIntervals_length ds 0, fun i hi => ?_⟩
  simpa using chunkIntervals_get ds 0 i hi

/-- C2 witness: the intervals of the duration list [5, 7]. -/
theorem c2_cumulative_intervals_witness :
    1 < ([5, 7] : List Nat).length ∧
      (chunkIntervals 0 [5, 7]).length = 2 ∧
      (chunkIntervals 0 [5, 7])[1]? = some (5, 12) := by
  refine ⟨by decide, (c2_cumulative_intervals [5, 7]).1, ?_⟩
  have h := (c2_cumulative_intervals [5, 7]).2 1 (by decide)
  simpa using h

/-! ## Claim C10 -/

/-- C10: a segment whose recognition succeeds with the empty string is
treated exactly like a NoSpeechDetected segment — it contributes no
transcript text and no subtitle entry — while its duration still
advances the cursor: in the two-segment instance the follower keeps
ordinal 2 and the interval from d1 to d1 + d2. -/
theorem c10_empty_text_like_no_speech :
    (∀ (pre : List (Nat × RecResult)) (d : Nat) (post : List (Nat × RecResult)),
      processChunks (pre ++ (d, RecResult.ok "") :: post) =
        processChunks (pre ++ (d, RecResult.unknownValue) :: post)) ∧
    (∀ (d1 d2 : Nat) (t : String), t ≠ "" →
      processChunks [(d1, RecResult.ok ""), (d2, RecResult.ok t)] =
        ([t], [{ index := 2, start := d1, stop := d1 + d2, text := t }])) := by
  constructor
  · intro pre d post
    exact processChunksGo_ok_empty pre d post 0 0
  · intro d1 d2 t ht
    simp [processChunks, processChunksGo, ht]

/-- C10 witness: the two-segment instance at concrete values. -/
theorem c10_empty_text_like_no_speech_witness :
    ("later" : String) ≠ "" ∧
      processChunks [(600, RecResult.ok ""), (150, RecResult.ok "later")] =
        (["later"], [{ index := 2, start := 600, stop := 750, text := "later" }]) :=
  ⟨by decide, c10_empty_text_like_no_speech.2 600 150 "later" (by decide)⟩

/-! ## Claim C3 -/

/-- C3: when every segment's recognition ends in NoSpeechDetected or an
error (in particular when there are no segments) and the writes go
through, the pipeline still returns success and writes the sentinel
artifacts: the transcript file holds exactly the sentinel string and
the subtitle file holds exactly one entry with index 1, the interval
from 0 ms to 1000 ms, and the sentinel text. -/
theorem c3_sentinel_on_zero_recognized (env : RunEnv) (hw : env.writesOk = true)
    (h : ∀ c ∈ env.chunks, c.2 = RecResult.unknownValue ∨ ∃ m, c.2 = RecResult.error m) :
    pipelineRun env =
      { success := true
        tempDirRemoved := true
        txtContent := some sentinelText
        srtContent := some ("1\n" ++ format_time 0 ++ " --> " ++ format_time 1000 ++ "\n"
          ++ sentinelText ++ "\n") } := by
  have hp : processChunks env.chunks = ([], []) := processChunksGo_none env.chunks h 0 0
  simp only [pipelineRun, hp, hw, if_pos]
  refine congrArg _ ?_
  have : srtFile [] [] = "1\n" ++ format_time 0 ++ " --> " ++ format_time 1000 ++ "\n"
      ++ sentinelText ++ "\n" := by decide
  simp [transcriptFile, this]

/-- C3 witness: a run with one errored and one silent segment. -/
theorem c3_sentinel_on_zero_recognized_witness :
    (∀ c ∈ ([(500, RecResult.error "x"), (250, RecResult.unknownValue)] :
        List (Nat × RecResult)),
      c.2 = RecResult.unknownValue ∨ ∃ m, c.2 = RecResult.error m) ∧
      pipelineRun ⟨[(500, RecResult.error "x"), (250, RecResult.unknownValue)], true⟩ =
        { success := true
          tempDirRemoved := true
          txtContent := some sentinelText
          srtContent := some ("1\n" ++ format_time 0 ++ " --> " ++ format_time 1000 ++ "\n"
            ++ sentinelText ++ "\n") } := by
  refine ⟨?_, ?_⟩
  · intro c hc
    rcases List.mem_cons.mp hc with h1 | hc
    · exact Or.inr ⟨"x", by rw [h1]⟩
    · rcases List.mem_cons.mp hc with h2 | h3
      · exact Or.inl (by rw [h2])
      · exact absurd h3 (List.not_mem_nil c)
  · exact c3_sentinel_on_zero_recognized _ rfl (by
      intro c hc
      rcases List.mem_cons.mp hc with h1 | hc
      · exact Or.inr ⟨"x", by rw [h1]⟩
      · rcases List.mem_cons.mp hc with h2 | h3
        · exact Or.inl (by rw [h2])
        · exact absurd h3 (List.not_mem_nil c))

/-! ## Claim C4 -/

/-- C4: the failing run the claim overlooks, evaluated: after the chunk
directory is created and one chunk is recognized, a failing transcript
write makes the run take the exception path, which returns False while
the transient chunk directory is still in place — the cleanup of lines
219-221 is only reached on the no-exception path. -/
theorem c4_temp_dir_survives_exception :
    pipelineRun ⟨[(1000, RecResult.ok "hello")], false⟩ =
      { success := false, tempDirRemoved := false, txtContent := none, srtContent := none } :=
  rfl

/-! ## Claim C5 -/

/-- C5 counterexample: at 90000000 ms (25 hours) the hours field shown
is the unreduced total 25, not 25 mod 24 = 1, so the claimed mod-24
reduction does not happen. -/
theorem c5_hours_not_mod24_counterexample :
    format_time 90000000 = "25:00:00,000" ∧
      format_time 90000000 ≠ "01:00:00,000" ∧
      90000000 / 1000 / 60 / 60 % 24 = 1 := by
  refine ⟨by decide, by decide, by decide⟩

/-- C5 amended: format_time decomposes by successive divmod — the
milliseconds field is ms mod 1000, seconds and minutes are the
quotients mod 60, and the hours field is the whole remaining quotient
ms / 3600000, not reduced mod 24. -/
theorem c5_divmod_decomposition (ms : Nat) :
    format_time ms =
      pad2 (ms / 3600000) ++ ":" ++ pad2 (ms / 60000 % 60) ++ ":" ++ pad2 (ms / 1000 % 60)
        ++ "," ++ pad3 (ms % 1000) := by
  have h1 : ms / 1000 / 60 = ms / 60000 := by
    rw [Nat.div_div_eq_div_mul]
  have h2 : ms / 60000 / 60 = ms / 3600000 := by
    rw [Nat.div_div_eq_div_mul]
  simp only [format_time, h1, h2]

/-! ## Claim C8 -/

/-- C8: format_time zero-pads each field: 3661000 ms formats to
01:01:01,000 and 500 ms to 00:00:00,500. -/
theorem c8_format_time_round_trip :
    format_time 3661000 = "01:01:01,000" ∧ format_time 500 = "00:00:00,500" := by
  refine ⟨by decide, by decide⟩

/-! ## Claim C6 -/

/-- The paragraph string accumulated by the loop after the sentences of
`group` is their concatenation, each followed by the space of line 50. -/
theorem paraGo_eq_specGroups (ss : List (List Char)) :
    ∀ (i : Nat) (fmt : List Char) (group : List (List Char)),
      paraGo i fmt ((group.map (fun s => s ++ [' '])).flatten) ss =
        fmt ++ ((specGroups i group ss).1.map (fun g => renderGroup g ++ ['\n', '\n'])).flatten
          ++ (if (specGroups i group ss).2.isEmpty then []
              else renderGroup (specGroups i group ss).2) := by
  induction ss with
  | nil =>
    intro i fmt group
    cases group with
    | nil => simp [paraGo, specGroups]
    | cons g gs =>
      have hne : (((g :: gs).map (fun s => s ++ [' '])).flatten).isEmpty = false := by
        simp [List.isEmpty_eq_false_iff_exists_mem]
      simp only [paraGo, specGroups, hne, Bool.false_eq_true, if_neg, List.isEmpty_cons,
        renderGroup]
      simp
  | cons s rest ih =>
    intro i fmt group
    have hpara : (group.map (fun s => s ++ [' '])).flatten ++ s ++ [' '] =
        (((group ++ [s]).map (fun s => s ++ [' '])).flatten) := by
      simp [List.flatten_append]
    by_cases hb : ((i + 1) % 4 == 0 || endsTerminalList s) = true
    · have hb' : breakHere i s = true := by
        simpa [breakHere] using hb
      have hih := ih (i + 1)
        (fmt ++ pyStripList (((group ++ [s]).map (fun s => s ++ [' '])).flatten)
          ++ ['\n', '\n']) []
      simp only [List.map_nil, List.flatten_nil] at hih
      simp only [paraGo, hb', if_true, specGroups, hb, hpara]
      rw [hih]
      simp [renderGroup, List.append_assoc]
    · have hb' : breakHere i s = false := by
        simpa [breakHere] using hb
      have hih := ih (i + 1) fmt (group ++ [s])
      simp only [paraGo, hb', Bool.false_eq_true, if_false, specGroups, hb, hpara]
      exact hih

/-- C6: the paragraphing pass of lines 49-58 groups the sentence list
exactly as the spec describes: a paragraph break is emitted after
sentence i precisely when (i+1) mod 4 = 0 OR the sentence ends at a
sentence-terminal punctuation mark — the two triggers live in a single
disjunction, for every input sentence sequence. -/
theorem c6_double_trigger_paragraphing (ss : List (List Char)) :
    paragraphPass ss = specParagraphs ss := by
  have h := paraGo_eq_specGroups ss 0 [] []
  simpa [paragraphPass, specParagraphs] using h

/-! ## Claim C9 -/

/-- The head of a dropWhile result falsifies the predicate. -/
theorem head?_dropWhile_false (p : Char → Bool) (l : List Char) (c : Char)
    (h : (l.dropWhile p).head? = some c) : p c = false := by
  induction l with
  | nil => simp [List.dropWhile] at h
  | cons x xs ih =>
    rw [List.dropWhile_cons] at h
    by_cases hx : p x = true
    · rw [if_pos hx] at h; exact ih h
    · rw [if_neg hx] at h
      simp only [List.head?_cons, Option.some.injEq] at h
      subst h
      exact Bool.eq_false_iff.mpr hx

/-- Trimming the right of an appended list: when the right part trims to
nothing the left part decides, otherwise the left part is untouched. -/
theorem trimRight_append (a b : List Char) :
    trimRightList (a ++ b) =
      if trimRightList b = [] then trimRightList a else a ++ trimRightList b := by
  unfold trimRightList
  rw [List.reverse_append, List.dropWhile_append]
  by_cases hb : b.reverse.dropWhile isPyWs = []
  · rw [if_pos (by simp [hb]), if_pos (by simp [hb])]
  · rw [if_neg (by simp [hb]), if_neg (by simp [hb]), List.reverse_append,
      List.reverse_reverse]

/-- A single whitespace character trims away on the right. -/
theorem trimRight_ws_singleton (c : Char) (h : isPyWs c = true) :
    trimRightList [c] = [] := by
  simp [trimRightList, List.dropWhile, h]

/-- endsTerminal reads the last character left after the right trim. -/
theorem endsTerminal_eq_last (l : List Char) :
    endsTerminalList l =
      (match (trimRightList l).getLast? with
       | some c => isPunct c
       | none => false) := by
  unfold endsTerminalList trimRightList
  rw [List.getLast?_eq_head?_reverse, List.reverse_reverse]
  cases l.reverse.dropWhile isPyWs <;> rfl

/-- Stripping both sides leaves the same last character as trimming only
the right side. -/
theorem pyStrip_getLast (l : List Char) :
    (pyStripList l).getLast? = (trimRightList l).getLast? := by
  unfold pyStripList trimRightList
  rw [List.getLast?_eq_head?_reverse, List.reverse_reverse,
    List.getLast?_eq_head?_reverse, List.reverse_reverse]
  conv_rhs => rw [← List.takeWhile_append_dropWhile isPyWs l]
  rw [List.reverse_append, List.dropWhile_append]
  by_cases hr : (l.dropWhile isPyWs).reverse.dropWhile isPyWs = []
  · rw [if_pos (by simp [hr]), hr]
    have : ∀ x ∈ (l.takeWhile isPyWs).reverse, isPyWs x := by
      intro x hx
      exact List.mem_takeWhile_imp (List.mem_reverse.mp hx)
    rw [List.dropWhile_eq_nil_iff.mpr this]
  · rw [if_neg (by simp [hr])]
    rcases hx : (l.dropWhile isPyWs).reverse.dropWhile isPyWs with _ | ⟨c, cs⟩
    · exact absurd hx hr
    · simp

/-- Through the paragraph loop, the output's last character is either a
newline (from a flushed blank line) or not sentence-terminal (a pending
paragraph never ends in . ! or ?, since its last visible sentence failed
the terminal test). -/
theorem paraGo_last_ok (ss : List (List Char)) :
    ∀ (i : Nat) (fmt para : List Char),
      (∀ c, fmt.getLast? = some c → c = '\n') →
      (∀ c, (trimRightList para).getLast? = some c → isPunct c = false) →
      ∀ c, (paraGo i fmt para ss).getLast? = some c → c = '\n' ∨ isPunct c = false := by
  induction ss with
  | nil =>
    intro i fmt para hf hp c hc
    by_cases hpe : para.isEmpty
    · rw [paraGo, if_pos hpe] at hc
      exact Or.inl (hf c hc)
    · rw [paraGo, if_neg hpe] at hc
      by_cases hs : pyStripList para = []
      · rw [hs, List.append_nil] at hc
        exact Or.inl (hf c hc)
      · rw [List.getLast?_append_of_ne_nil _ hs, pyStrip_getLast] at hc
        exact Or.inr (hp c hc)
  | cons s rest ih =>
    intro i fmt para hf hp c hc
    rw [paraGo] at hc
    by_cases hb : breakHere i s = true
    · rw [if_pos hb] at hc
      refine ih (i + 1) _ [] ?_ ?_ c hc
      · intro c' hc'
        rw [List.getLast?_append_of_ne_nil _ (by simp)] at hc'
        simpa using hc'.symm
      · intro c' hc'
        simp [trimRightList] at hc'
    · rw [if_neg hb] at hc
      have hbf : breakHere i s = false := Bool.eq_false_iff.mpr hb
      have hterm : endsTerminalList s = false := by
        revert hbf
        unfold breakHere
        cases endsTerminalList s <;> simp
      refine ih (i + 1) fmt (para ++ s ++ [' ']) hf ?_ c hc
      intro c' hc'
      rw [List.append_assoc, trimRight_append] at hc'
      have hsp : trimRightList (s ++ [' ']) = trimRightList s := by
        rw [trimRight_append, trimRight_ws_singleton ' ' (by decide)]
        simp
      by_cases hts : trimRightList s = []
      · rw [if_pos (by rw [hsp]; exact hts)] at hc'
        exact hp c' hc'
      · rw [if_neg (by rw [hsp]; exact hts)] at hc'
        rw [List.getLast?_append_of_ne_nil _ (by rw [hsp]; exact hts), hsp] at hc'
        have := endsTerminal_eq_last s
        rw [hc', hterm] at this
        exact this.symm

/-- The formatter's output never ends in sentence-terminal punctuation
without a trailing blank line, so it is never the sentinel string. -/
theorem format_pipeline_ne_sentinel (l : List Char) :
    formatPipeline l ≠ sentinelText.data := by
  intro h
  have hlast : (formatPipeline l).getLast? = some '.' := by
    rw [h]; decide
  unfold formatPipeline paragraphPass at hlast
  have := paraGo_last_ok
    (splitSentencesList
      (pyFillList 80
        (List.intercalate [' ']
          ((splitSentencesList (capFirstList (pyStripList l))).map capFirstList))))
    0 [] [] (by intro c hc; simp at hc) (by intro c hc; simp [trimRightList] at hc)
    '.' hlast
  rcases this with h1 | h2
  · exact absurd h1 (by decide)
  · exact absurd h2 (by decide)

/-- C9: format_transcription maps the empty string to the empty string,
the sentinel is produced by the orchestrator's zero-recognized branch,
and format_transcription itself never produces the sentinel on any
input. -/
theorem c9_sentinel_only_from_orchestrator :
    format_transcription "" = "" ∧ transcriptFile [] = sentinelText ∧
      ∀ s : String, format_transcription s ≠ sentinelText := by
  refine ⟨rfl, rfl, fun s => ?_⟩
  unfold format_transcription
  by_cases hs : s = ""
  · rw [if_pos hs]
    decide
  · rw [if_neg hs]
    intro h
    exact format_pipeline_ne_sentinel s.data (congrArg String.data h)

/-! ## Claim C7: the token content of a string

The claim's "equal modulo whitespace" is read as: equal sequences of
maximal whitespace-free runs (`tokensList`).  The lemmas below track
that sequence through every stage of format_transcription. -/

/-- Flushing: tokensGo on the exhausted input emits the pending word. -/
theorem tokensGo_nil (acc : List Char) :
    tokensGo acc [] = if acc.isEmpty then [] else [acc] := rfl

/-- A whitespace head emits the pending word. -/
theorem tokensGo_ws (acc : List Char) (c : Char) (rest : List Char) (h : isPyWs c = true) :
    tokensGo acc (c :: rest) =
      (if acc.isEmpty then [] else [acc]) ++ tokensGo [] rest := by
  by_cases ha : acc.isEmpty <;> simp [tokensGo, h, ha]

/-- A non-whitespace head extends the pending word. -/
theorem tokensGo_not_ws (acc : List Char) (c : Char) (rest : List Char) (h : isPyWs c = false) :
    tokensGo acc (c :: rest) = tokensGo (acc ++ [c]) rest := by
  simp [tokensGo, h]

/-- A leading all-whitespace run contributes nothing. -/
theorem tokensList_ws_append (run : List Char) (h : ∀ c ∈ run, isPyWs c = true) (x : List Char) :
    tokensList (run ++ x) = tokensList x := by
  induction run with
  | nil => rfl
  | cons c cs ih =>
    rw [List.cons_append, tokensList, tokensGo_ws [] c _ (h c (List.mem_cons_self c cs))]
    simpa using ih (fun d hd => h d (List.mem_cons_of_mem c hd))

/-- A nonempty leading whitespace run flushes the pending word. -/
theorem tokensGo_ws_run (run : List Char) (hne : run ≠ [])
    (h : ∀ c ∈ run, isPyWs c = true) (acc x : List Char) :
    tokensGo acc (run ++ x) = (if acc.isEmpty then [] else [acc]) ++ tokensGo [] x := by
  cases run with
  | nil => exact absurd rfl hne
  | cons c cs =>
    rw [List.cons_append, tokensGo_ws acc c _ (h c (List.mem_cons_self c cs))]
    have : tokensGo [] (cs ++ x) = tokensList (cs ++ x) := rfl
    rw [this, tokensList_ws_append cs (fun d hd => h d (List.mem_cons_of_mem c hd)) x]
    rfl

/-- A trailing all-whitespace run contributes nothing. -/
theorem tokensGo_append_ws (run : List Char) (h : ∀ c ∈ run, isPyWs c = true) :
    ∀ (x acc : List Char), tokensGo acc (x ++ run) = tokensGo acc x := by
  intro x
  induction x with
  | nil =>
    intro acc
    cases run with
    | nil => rfl
    | cons c cs =>
      rw [List.nil_append, tokensGo_ws acc c _ (h c (List.mem_cons_self c cs))]
      have hcs : ∀ d ∈ cs, isPyWs d = true := fun d hd => h d (List.mem_cons_of_mem c hd)
      have h2 : tokensGo [] cs = [] := by
        simpa [tokensList] using tokensList_ws_append cs hcs []
      rw [h2, tokensGo_nil, List.append_nil]
  | cons c cs ih =>
    intro acc
    by_cases hc : isPyWs c = true
    · rw [List.cons_append, tokensGo_ws acc c _ hc, tokensGo_ws acc c cs hc, ih []]
    · rw [List.cons_append, tokensGo_not_ws acc c _ (Bool.eq_false_iff.mpr hc),
        tokensGo_not_ws acc c cs (Bool.eq_false_iff.mpr hc), ih (acc ++ [c])]

/-- A leading all-non-whitespace run extends the pending word. -/
theorem tokensGo_word_append (w : List Char) (h : ∀ c ∈ w, isPyWs c = false) :
    ∀ (acc x : List Char), tokensGo acc (w ++ x) = tokensGo (acc ++ w) x := by
  induction w with
  | nil => intro acc x; simp
  | cons c cs ih =>
    intro acc x
    rw [List.cons_append, tokensGo_not_ws acc c _ (h c (List.mem_cons_self c cs)),
      ih (fun d hd => h d (List.mem_cons_of_mem c hd)) (acc ++ [c]) x,
      List.append_assoc]
    rfl

/-- Splitting at a whitespace character: the tokens on its two sides
concatenate. -/
theorem tokensGo_split_ws (c : Char) (hc : isPyWs c = true) (b : List Char) :
    ∀ (a acc : List Char), tokensGo acc (a ++ c :: b) = tokensGo acc a ++ tokensList b := by
  intro a
  induction a with
  | nil =>
    intro acc
    rw [List.nil_append, tokensGo_ws acc c b hc, tokensGo_nil]
    rfl
  | cons d ds ih =>
    intro acc
    by_cases hd : isPyWs d = true
    · rw [List.cons_append, tokensGo_ws acc d _ hd, tokensGo_ws acc d ds hd, ih [],
        List.append_assoc]
    · rw [List.cons_append, tokensGo_not_ws acc d _ (Bool.eq_false_iff.mpr hd),
        tokensGo_not_ws acc d ds (Bool.eq_false_iff.mpr hd), ih (acc ++ [d])]

/-- The same, at the token-list level. -/
theorem tokensList_split_ws (a : List Char) (c : Char) (b : List Char)
    (hc : isPyWs c = true) :
    tokensList (a ++ c :: b) = tokensList a ++ tokensList b :=
  tokensGo_split_ws c hc b a []

/-- Tokens ignore everything str.strip removes. -/
theorem tokensList_pyStrip (l : List Char) :
    tokensList (pyStripList l) = tokensList l := by
  unfold pyStripList
  have h1 : tokensList (l.dropWhile isPyWs) = tokensList l := by
    conv_rhs => rw [← List.takeWhile_append_dropWhile isPyWs l]
    rw [tokensList_ws_append _ (fun c hc => List.mem_takeWhile_imp hc)]
  rw [← h1]
  set m := l.dropWhile isPyWs with hm
  have h2 : m = (m.reverse.dropWhile isPyWs).reverse ++ (m.reverse.takeWhile isPyWs).reverse := by
    conv_lhs => rw [← List.reverse_reverse m, ← List.takeWhile_append_dropWhile isPyWs m.reverse]
    rw [List.reverse_append]
  conv_rhs => rw [h2]
  exact (tokensGo_append_ws _
    (fun c hc => List.mem_takeWhile_imp (List.mem_reverse.mp hc)) _ []).symm

/-- Every character inside a token comes from the pending word or the
input. -/
theorem tokensGo_flatten_subset (l : List Char) :
    ∀ (acc : List Char) (x : Char), x ∈ (tokensGo acc l).flatten → x ∈ acc ∨ x ∈ l := by
  induction l with
  | nil =>
    intro acc x hx
    by_cases ha : acc.isEmpty
    · rw [tokensGo_nil, if_pos ha] at hx
      simp at hx
    · rw [tokensGo_nil, if_neg ha] at hx
      simp at hx
      exact Or.inl hx
  | cons c rest ih =>
    intro acc x hx
    by_cases hc : isPyWs c = true
    · rw [tokensGo_ws acc c rest hc, List.flatten_append] at hx
      rcases List.mem_append.mp hx with h1 | h2
      · by_cases ha : acc.isEmpty
        · rw [if_pos ha] at h1
          simp at h1
        · rw [if_neg ha] at h1
          simp at h1
          exact Or.inl h1
      · rcases ih [] x h2 with h | h
        · simp at h
        · exact Or.inr (List.mem_cons_of_mem c h)
    · rw [tokensGo_not_ws acc c rest (Bool.eq_false_iff.mpr hc)] at hx
      rcases ih (acc ++ [c]) x hx with h | h
      · rcases List.mem_append.mp h with h | h
        · exact Or.inl h
        · simp at h
          subst h
          exact Or.inr (List.mem_cons_self _ _)
      · exact Or.inr (List.mem_cons_of_mem c h)

/-- The pending word's characters end up in some token. -/
theorem mem_tokensGo_flatten_of_acc (l : List Char) :
    ∀ (acc : List Char) (x : Char), x ∈ acc → x ∈ (tokensGo acc l).flatten := by
  induction l with
  | nil =>
    intro acc x hx
    have ha : acc.isEmpty = false := by
      cases acc with
      | nil => simp at hx
      | cons a as => rfl
    rw [tokensGo_nil, ha]
    simpa using hx
  | cons c rest ih =>
    intro acc x hx
    by_cases hc : isPyWs c = true
    · have ha : acc.isEmpty = false := by
        cases acc with
        | nil => simp at hx
        | cons a as => rfl
      rw [tokensGo_ws acc c rest hc, ha, List.flatten_append]
      exact List.mem_append.mpr (Or.inl (by simpa using hx))
    · rw [tokensGo_not_ws acc c rest (Bool.eq_false_iff.mpr hc)]
      exact ih (acc ++ [c]) x (List.mem_append.mpr (Or.inl hx))

/-- A non-whitespace character of the input ends up in some token. -/
theorem mem_tokensGo_flatten (l : List Char) :
    ∀ (acc : List Char) (x : Char), isPyWs x = false → x ∈ l →
      x ∈ (tokensGo acc l).flatten := by
  induction l with
  | nil =>
    intro acc x _ hx
    simp at hx
  | cons c rest ih =>
    intro acc x hxws hx
    by_cases hc : isPyWs c = true
    · have hxr : x ∈ rest := by
        rcases List.mem_cons.mp hx with h | h
        · subst h; rw [hxws] at hc; exact absurd hc (by simp)
        · exact h
      rw [tokensGo_ws acc c rest hc, List.flatten_append]
      exact List.mem_append.mpr (Or.inr (ih [] x hxws hxr))
    · rw [tokensGo_not_ws acc c rest (Bool.eq_false_iff.mpr hc)]
      rcases List.mem_cons.mp hx with h | h
      · subst h
        exact mem_tokensGo_flatten_of_acc rest (acc ++ [x]) x (by simp)
      · exact ih (acc ++ [c]) x hxws h

/-- Tokens of a whitespace-intercalated list of pieces: the pieces'
tokens in order. -/
theorem tokensList_intercalate (c : Char) (hc : isPyWs c = true) (ps : List (List Char)) :
    tokensList (List.intercalate [c] ps) = (ps.map tokensList).flatten := by
  induction ps with
  | nil => rfl
  | cons p ps ih =>
    cases ps with
    | nil => simp [List.intercalate, List.intersperse]
    | cons q qs =>
      have hstep : List.intercalate [c] (p :: q :: qs) =
          p ++ c :: List.intercalate [c] (q :: qs) := by
        simp [List.intercalate, List.intersperse]
      rw [hstep, tokensList_split_ws p c _ hc, ih]
      simp

/-- The sentence splitter only removes whitespace runs: the tokens of
its pieces, in order, are the tokens of the input. -/
theorem sentGo_tokens (l : List Char) :
    ∀ (skip : Bool) (acc : List Char), (skip = true → acc = []) →
      ((sentGo skip acc l).map tokensList).flatten = tokensList (acc ++ l) := by
  induction l with
  | nil =>
    intro skip acc _
    simp [sentGo]
  | cons c rest ih =>
    intro skip acc hsk
    by_cases hskip : skip = true
    · have hacc : acc = [] := hsk hskip
      subst hacc
      subst hskip
      by_cases hc : isPyWs c = true
      · have h1 : sentGo true [] (c :: rest) = sentGo true [] rest := by
          simp [sentGo, hc]
        rw [h1, ih true [] (fun _ => rfl)]
        have h2 : tokensList (c :: rest) = tokensList rest := by
          rw [tokensList, tokensGo_ws [] c rest hc]
          rfl
        simpa using h2.symm
      · have h1 : sentGo true [] (c :: rest) = sentGo false [c] rest := by
          simp [sentGo, hc]
        rw [h1, ih false [c] (by intro h; simp at h)]
        rfl
    · have hskf : skip = false := Bool.eq_false_iff.mpr hskip
      subst hskf
      by_cases hb : (isPyWs c && lastIsPunct acc) = true
      · have h1 : sentGo false acc (c :: rest) = acc :: sentGo true [] rest := by
          simp [sentGo, hb]
        rw [h1, List.map_cons, List.flatten_cons, ih true [] (fun _ => rfl)]
        have hcw : isPyWs c = true := by
          revert hb
          cases isPyWs c <;> simp
        rw [tokensList_split_ws acc c rest hcw]
        rfl
      · have h1 : sentGo false acc (c :: rest) = sentGo false (acc ++ [c]) rest := by
          simp only [sentGo, hb, Bool.false_eq_true, if_false]
        rw [h1, ih false (acc ++ [c]) (by intro h; simp at h)]
        rw [List.append_assoc]
        rfl

/-- Replacing whitespace characters by spaces preserves the tokens. -/
theorem tokensGo_map_space (l : List Char) :
    ∀ acc, tokensGo acc (l.map (fun c => if isPyWs c then ' ' else c)) = tokensGo acc l := by
  induction l with
  | nil => intro acc; rfl
  | cons c rest ih =>
    intro acc
    by_cases hc : isPyWs c = true
    · rw [List.map_cons, if_pos hc, tokensGo_ws acc ' ' _ (by decide),
        tokensGo_ws acc c rest hc, ih []]
    · rw [List.map_cons, if_neg hc, tokensGo_not_ws acc c _ (Bool.eq_false_iff.mpr hc),
        tokensGo_not_ws acc c rest (Bool.eq_false_iff.mpr hc), ih (acc ++ [c])]

/-- Expanding tabs preserves the tokens (tabs become spaces). -/
theorem tokensGo_expandtabs (l : List Char) :
    ∀ (col : Nat) (acc : List Char), tokensGo acc (expandtabsGo col l) = tokensGo acc l := by
  induction l with
  | nil => intro col acc; rfl
  | cons c rest ih =>
    intro col acc
    by_cases ht : c = '\t'
    · subst ht
      have hexp : expandtabsGo col ('\t' :: rest) =
          List.replicate (8 - col % 8) ' ' ++ expandtabsGo (col + (8 - col % 8)) rest := by
        simp [expandtabsGo]
      have hrep : (List.replicate (8 - col % 8) ' ') ≠ [] := by
        have h8 : col % 8 < 8 := Nat.mod_lt col (by omega)
        simp only [ne_eq, List.replicate_eq_nil_iff]
        omega
      rw [hexp, tokensGo_ws_run _ hrep
        (fun d hd => by rw [List.eq_of_mem_replicate hd]; decide) acc _,
        ih (col + (8 - col % 8)) [], tokensGo_ws acc '\t' rest (by decide)]
    · by_cases hnl : (c = '\n' || c = '\r') = true
      · have hexp : expandtabsGo col (c :: rest) = c :: expandtabsGo 0 rest := by
          simp [expandtabsGo, ht, hnl]
        have hcw : isPyWs c = true := by
          rcases (by simpa using hnl : c = '\n' ∨ c = '\r') with h | h <;>
            (subst h; decide)
        rw [hexp, tokensGo_ws acc c _ hcw, tokensGo_ws acc c rest hcw, ih 0 []]
      · have hexp : expandtabsGo col (c :: rest) = c :: expandtabsGo (col + 1) rest := by
          simp [expandtabsGo, ht, hnl]
        by_cases hcw : isPyWs c = true
        · rw [hexp, tokensGo_ws acc c _ hcw, tokensGo_ws acc c rest hcw, ih (col + 1) []]
        · rw [hexp, tokensGo_not_ws acc c _ (Bool.eq_false_iff.mpr hcw),
            tokensGo_not_ws acc c rest (Bool.eq_false_iff.mpr hcw), ih (col + 1) (acc ++ [c])]

/-- Munging preserves the tokens. -/
theorem tokensList_munge (l : List Char) : tokensList (mungeList l) = tokensList l := by
  unfold mungeList tokensList
  rw [tokensGo_map_space, tokensGo_expandtabs]

/-! ### Runs: the chunker's output on hyphen-free text -/

/-- Every run is nonempty (once the pending run is). -/
theorem runsGo_ne_nil (l : List Char) :
    ∀ (b : Bool) (a : List Char), a ≠ [] → ∀ r ∈ runsGo b a l, r ≠ [] := by
  induction l with
  | nil =>
    intro b a ha r hr
    simp [runsGo] at hr
    subst hr
    exact ha
  | cons c rest ih =>
    intro b a ha r hr
    rw [runsGo] at hr
    by_cases hc : isPyWs c = b
    · rw [if_pos hc] at hr
      exact ih b (a ++ [c]) (by simp) r hr
    · rw [if_neg hc] at hr
      rcases List.mem_cons.mp hr with h | h
      · subst h; exact ha
      · exact ih (isPyWs c) [c] (by simp) r h

/-- Every run is uniform: all whitespace or all non-whitespace. -/
theorem runsGo_pure (l : List Char) :
    ∀ (b : Bool) (a : List Char), (∀ c ∈ a, isPyWs c = b) →
      ∀ r ∈ runsGo b a l, (∀ c ∈ r, isPyWs c = true) ∨ (∀ c ∈ r, isPyWs c = false) := by
  induction l with
  | nil =>
    intro b a ha r hr
    simp [runsGo] at hr
    subst hr
    cases b
    · exact Or.inr (fun c hc => ha c hc)
    · exact Or.inl (fun c hc => ha c hc)
  | cons c rest ih =>
    intro b a ha r hr
    rw [runsGo] at hr
    by_cases hc : isPyWs c = b
    · rw [if_pos hc] at hr
      refine ih b (a ++ [c]) ?_ r hr
      intro d hd
      rcases List.mem_append.mp hd with h | h
      · exact ha d h
      · simp at h; subst h; exact hc
    · rw [if_neg hc] at hr
      rcases List.mem_cons.mp hr with h | h
      · subst h
        cases b
        · exact Or.inr (fun d hd => ha d hd)
        · exact Or.inl (fun d hd => ha d hd)
      · exact ih (isPyWs c) [c] (by intro d hd; simp at hd; subst hd; rfl) r h

/-- The first run keeps the pending run's kind. -/
theorem runsGo_head (l : List Char) :
    ∀ (b : Bool) (a : List Char), (∀ c ∈ a, isPyWs c = b) →
      ∀ r, (runsGo b a l).head? = some r → ∀ c ∈ r, isPyWs c = b := by
  induction l with
  | nil =>
    intro b a ha r hr
    simp [runsGo] at hr
    subst hr
    exact ha
  | cons c rest ih =>
    intro b a ha r hr
    rw [runsGo] at hr
    by_cases hc : isPyWs c = b
    · rw [if_pos hc] at hr
      refine ih b (a ++ [c]) ?_ r hr
      intro d hd
      rcases List.mem_append.mp hd with h | h
      · exact ha d h
      · simp at h; subst h; exact hc
    · rw [if_neg hc] at hr
      simp at hr
      subst hr
      exact ha

/-- Adjacent runs never hold two words: a run with a visible character
is followed by a whitespace run (if any). -/
theorem runsGo_chain (l : List Char) :
    ∀ (b : Bool) (a : List Char), (∀ c ∈ a, isPyWs c = b) →
      List.Chain'
        (fun x y => (x.any fun c => !isPyWs c) = true → (y.any fun c => !isPyWs c) = false)
        (runsGo b a l) := by
  induction l with
  | nil =>
    intro b a _
    simp [runsGo]
  | cons c rest ih =>
    intro b a ha
    rw [runsGo]
    by_cases hc : isPyWs c = b
    · rw [if_pos hc]
      refine ih b (a ++ [c]) ?_
      intro d hd
      rcases List.mem_append.mp hd with h | h
      · exact ha d h
      · simp at h; subst h; exact hc
    · rw [if_neg hc]
      rw [List.chain'_cons']
      refine ⟨?_, ih (isPyWs c) [c] (by intro d hd; simp at hd; subst hd; rfl)⟩
      intro y hy hax
      have hhead := runsGo_head rest (isPyWs c) [c]
        (by intro d hd; simp at hd; subst hd; rfl) y hy
      have hb : b = false := by
        rcases List.any_eq_true.mp hax with ⟨d, hd, hdw⟩
        have := ha d hd
        cases b
        · rfl
        · rw [this] at hdw; simp at hdw
      have hcw : isPyWs c = true := by
        cases hcv : isPyWs c
        · rw [hb] at hc; exact absurd hcv hc
        · rfl
      rw [List.any_eq_false]
      intro d hd
      rw [hhead d hd, hcw]
      simp

/-- The words among the runs are exactly the tokens. -/
theorem runsGo_wordChunks (l : List Char) :
    ∀ (b : Bool) (a : List Char), a ≠ [] → (∀ c ∈ a, isPyWs c = b) →
      wordChunks (runsGo b a l) = tokensGo (if b then [] else a) l := by
  induction l with
  | nil =>
    intro b a ha hab
    cases b
    · have : (a.any fun c => !isPyWs c) = true := by
        cases a with
        | nil => exact absurd rfl ha
        | cons x xs =>
          rw [List.any_eq_true]
          exact ⟨x, List.mem_cons_self x xs, by rw [hab x (List.mem_cons_self x xs)]; rfl⟩
      simp [runsGo, wordChunks, this, tokensGo_nil, List.isEmpty_eq_false_iff_exists_mem]
      cases a with
      | nil => exact absurd rfl ha
      | cons x xs => simp
    · have : (a.any fun c => !isPyWs c) = false := by
        rw [List.any_eq_false]
        intro d hd
        rw [hab d hd]
        simp
      simp [runsGo, wordChunks, this, tokensGo_nil]
  | cons c rest ih =>
    intro b a ha hab
    rw [runsGo]
    by_cases hc : isPyWs c = b
    · rw [if_pos hc]
      rw [ih b (a ++ [c]) (by simp) (by
        intro d hd
        rcases List.mem_append.mp hd with h | h
        · exact hab d h
        · simp at h; subst h; exact hc)]
      cases b
      · have hcw : isPyWs c = false := hc
        rw [if_neg (by simp), if_neg (by simp), tokensGo_not_ws a c rest hcw]
      · have hcw : isPyWs c = true := hc
        rw [if_pos rfl, if_pos rfl, tokensGo_ws [] c rest hcw]
        simp
    · rw [if_neg hc]
      have hrec := ih (isPyWs c) [c] (by simp) (by intro d hd; simp at hd; subst hd; rfl)
      cases b
      · -- pending run is a word; the flip character is whitespace
        have hcw : isPyWs c = true := by
          cases hcv : isPyWs c
          · exact absurd hcv hc
          · rfl
        have haw : (a.any fun c => !isPyWs c) = true := by
          cases a with
          | nil => exact absurd rfl ha
          | cons x xs =>
            rw [List.any_eq_true]
            exact ⟨x, List.mem_cons_self x xs, by rw [hab x (List.mem_cons_self x xs)]; rfl⟩
        rw [hcw] at hrec
        rw [if_pos rfl] at hrec
        have hAne : a.isEmpty = false := by
          cases a with
          | nil => exact absurd rfl ha
          | cons x xs => rfl
        rw [wordChunks, List.filter_cons, if_pos haw, hcw]
        have h2 : List.filter (fun r => r.any fun c => !isPyWs c) (runsGo true [c] rest)
            = tokensGo [] rest := hrec
        rw [h2, if_neg (by simp), tokensGo_ws a c rest hcw, hAne]
        simp
      · -- pending run is whitespace; the flip character opens a word
        have hcw : isPyWs c = false := by
          cases hcv : isPyWs c
          · rfl
          · exact absurd hcv hc
        have haw : (a.any fun c => !isPyWs c) = false := by
          rw [List.any_eq_false]
          intro d hd
          rw [hab d hd]
          simp
        rw [hcw] at hrec
        rw [if_neg (by simp)] at hrec
        rw [wordChunks, List.filter_cons, if_neg (by rw [haw]; simp), hcw]
        have h2 : List.filter (fun r => r.any fun c => !isPyWs c) (runsGo false [c] rest)
            = tokensGo [c] rest := hrec
        rw [h2, if_pos rfl, tokensGo_not_ws [] c rest hcw]
        rfl

/-! ### The chunker on hyphen-free text -/

/-- The em-dash lookahead fails when the next character is not a
hyphen. -/
theorem lookDashesWord_ne_dash (c : Char) (rest : List Char) (h : ¬(c = '-')) :
    lookDashesWord (c :: rest) = false := by
  unfold lookDashesWord
  split
  · rename_i heq
    rw [List.cons.injEq] at heq
    exact absurd heq.1 h
  · rfl

/-- On hyphen-free input the chunker computes exactly the run
decomposition, whatever the already-consumed text was. -/
theorem chunksGo_no_dash (l : List Char) :
    ∀ (_hl : ∀ c ∈ l, ¬(c = '-')),
      (∀ (prevRev a : List Char), chunksGo prevRev (ChunkMode.ws a) l = runsGo true a l) ∧
      (∀ (prevRev a : List Char), chunksGo prevRev (ChunkMode.word a) l = runsGo false a l) ∧
      (∀ prevRev : List Char, chunksGo prevRev ChunkMode.start l = runsList l) := by
  induction l with
  | nil =>
    intro hl
    exact ⟨fun _ _ => rfl, fun _ _ => rfl, fun _ => rfl⟩
  | cons c rest ih =>
    intro hl
    have hcd : ¬(c = '-') := hl c (List.mem_cons_self c rest)
    have hrest : ∀ d ∈ rest, ¬(d = '-') := fun d hd => hl d (List.mem_cons_of_mem c hd)
    obtain ⟨ihw, ihword, ihstart⟩ := ih hrest
    have hlook : lookDashesWord (c :: rest) = false := lookDashesWord_ne_dash c rest hcd
    have hstart : ∀ prevRev : List Char,
        chunkStart prevRev c rest = (if isPyWs c then ChunkMode.ws [c] else ChunkMode.word [c]) := by
      intro prevRev
      unfold chunkStart
      by_cases hcw : isPyWs c = true
      · rw [if_pos hcw, if_pos hcw]
      · rw [if_neg hcw, if_neg hcw, hlook]
        simp
    have hmain : ∀ prevRev : List Char,
        chunksGo (c :: prevRev) (if isPyWs c then ChunkMode.ws [c] else ChunkMode.word [c]) rest
          = runsGo (isPyWs c) [c] rest := by
      intro prevRev
      by_cases hcw : isPyWs c = true
      · rw [if_pos hcw, hcw, ihw]
      · have hcf : isPyWs c = false := Bool.eq_false_iff.mpr hcw
        rw [if_neg hcw, hcf, ihword]
    refine ⟨?_, ?_, ?_⟩
    · intro prevRev a
      rw [chunksGo, runsGo]
      by_cases hcw : isPyWs c = true
      · rw [if_pos hcw, if_pos (by rw [hcw]), ihw]
      · have hcf : isPyWs c = false := Bool.eq_false_iff.mpr hcw
        rw [if_neg hcw, if_neg (by rw [hcf]; simp), hstart prevRev, hmain prevRev]
    · intro prevRev a
      rw [chunksGo, runsGo]
      by_cases hcw : isPyWs c = true
      · rw [if_pos hcw, if_neg (by rw [hcw]; simp), hcw, ihw]
      · have hcf : isPyWs c = false := Bool.eq_false_iff.mpr hcw
        have hA : (c = '-' && twoLettersBefore prevRev && lookLtHypLt rest) = false := by
          have : (c = '-') = False := by simp [hcd]
          simp [this]
        have hC : (lastIsWordPunct a && lookDashesWord (c :: rest)) = false := by
          rw [hlook]
          simp
        rw [if_neg hcw, hA, hC]
        simp only [Bool.false_eq_true, if_false]
        rw [if_pos (by rw [hcf]), ihword]
    · intro prevRev
      rw [chunksGo, runsList, hstart prevRev, hmain prevRev]

/-! ### The line filler preserves the words -/

/-- A chunk whose characters are all whitespace holds no visible
character. -/
theorem any_not_ws_eq_false (r : List Char) (h : r.all isPyWs = true) :
    (r.any fun c => !isPyWs c) = false := by
  rw [List.any_eq_false]
  intro c hc
  rw [List.all_eq_true] at h
  rw [h c hc]
  simp

/-- popChunks splits its input into the popped prefix and the rest. -/
theorem popChunks_append (width : Nat) :
    ∀ (l : List (List Char)) (cur : Nat),
      (popChunks width cur l).1 ++ (popChunks width cur l).2 = l := by
  intro l
  induction l with
  | nil => intro cur; rfl
  | cons c cs ih =>
    intro cur
    rw [popChunks]
    by_cases h : cur + c.length ≤ width
    · rw [if_pos h]
      simpa using ih (cur + c.length)
    · rw [if_neg h]
      rfl

/-- If nothing was popped, the head chunk is wider than the width. -/
theorem popChunks_nil_head (width : Nat) (d : List Char) (ds : List (List Char))
    (h : (popChunks width 0 (d :: ds)).1 = []) : width < d.length := by
  by_contra hlt
  push_neg at hlt
  rw [popChunks, if_pos (by omega)] at h
  simp at h

/-- The popped line stays within the width. -/
theorem popChunks_lineLen (width : Nat) :
    ∀ (l : List (List Char)) (cur : Nat), cur ≤ width →
      cur + lineLen (popChunks width cur l).1 ≤ width := by
  intro l
  induction l with
  | nil => intro cur h; simpa [popChunks, lineLen]
  | cons c cs ih =>
    intro cur h
    rw [popChunks]
    by_cases hc : cur + c.length ≤ width
    · rw [if_pos hc]
      have h2 := ih (cur + c.length) hc
      simp only [lineLen, List.map_cons, List.sum_cons] at h2 ⊢
      omega
    · rw [if_neg hc]
      simpa [lineLen]

/-- rfindDashGo only returns indices below the end of its input. -/
theorem rfindDashGo_lt :
    ∀ (l : List Char) (i : Nat) (best : Option Nat),
      (∀ h0, best = some h0 → h0 < i) →
      ∀ h, rfindDashGo i best l = some h → h < i + l.length := by
  intro l
  induction l with
  | nil =>
    intro i best hbest h hr
    rw [rfindDashGo] at hr
    simpa using hbest h hr
  | cons c cs ih =>
    intro i best hbest h hr
    rw [rfindDashGo] at hr
    have hprop : ∀ h0, (if c = '-' then some i else best) = some h0 → h0 < i + 1 := by
      intro h0 h0e
      by_cases hc : c = '-'
      · rw [if_pos hc] at h0e
        simp at h0e
        omega
      · rw [if_neg hc] at h0e
        have := hbest h0 h0e
        omega
    have := ih (i + 1) _ hprop h hr
    simp only [List.length_cons] at this ⊢
    omega

/-- handleLongWord cuts the chunk at an index that is positive when the
line is empty and never beyond the width. -/
theorem handleLongWord_spec (width curLen : Nat) (chunk : List Char) :
    ∃ endIdx,
      handleLongWord width curLen chunk = (chunk.take endIdx, chunk.drop endIdx) ∧
      (1 ≤ width → endIdx ≤ width) ∧
      (1 ≤ width → curLen = 0 → 1 ≤ endIdx) := by
  simp only [handleLongWord]
  set spaceLeft := if width < 1 then 1 else width - curLen with hsl
  by_cases hlt : spaceLeft < chunk.length
  · rw [if_pos hlt]
    have hslw : 1 ≤ width → spaceLeft ≤ width := by
      intro hw
      rw [hsl, if_neg (by omega)]
      omega
    have hslp : 1 ≤ width → curLen = 0 → 1 ≤ spaceLeft := by
      intro hw hc
      rw [hsl, if_neg (by omega), hc]
      omega
    rcases hf : rfindDashGo 0 none (chunk.take spaceLeft) with _ | hidx
    · exact ⟨spaceLeft, rfl, hslw, hslp⟩
    · by_cases hcond : (0 < hidx && (chunk.take hidx).any (fun c => !(c = '-'))) = true
      · refine ⟨hidx + 1, by simp [hcond], ?_, ?_⟩
        · intro hw
          have hb := rfindDashGo_lt (chunk.take spaceLeft) 0 none (by intro h0 h; simp at h)
            hidx hf
          rw [List.length_take] at hb
          have := hslw hw
          omega
        · intro _ _
          omega
      · refine ⟨spaceLeft, by simp [hcond], hslw, hslp⟩
  · rw [if_neg hlt]
    have hslw : 1 ≤ width → spaceLeft ≤ width := by
      intro hw
      rw [hsl, if_neg (by omega)]
      omega
    have hslp : 1 ≤ width → curLen = 0 → 1 ≤ spaceLeft := by
      intro hw hc
      rw [hsl, if_neg (by omega), hc]
      omega
    exact ⟨spaceLeft, rfl, hslw, hslp⟩

/-- Dropping the trailing whitespace chunk keeps the words. -/
theorem dropTrailingWs_wordChunks (line : List (List Char)) :
    wordChunks (dropTrailingWsChunk line) = wordChunks line := by
  rcases hl : line.getLast? with _ | last
  · simp [dropTrailingWsChunk, hl]
  · by_cases hws : last.all isPyWs = true
    · have hline : dropTrailingWsChunk line = line.dropLast := by
        simp [dropTrailingWsChunk, hl, hws]
      rw [hline]
      conv_rhs => rw [← List.dropLast_append_getLast? last hl]
      rw [wordChunks, wordChunks, List.filter_append]
      have hfil : List.filter (fun r => r.any fun c => !isPyWs c) [last] = [] := by
        simp [List.filter_cons, any_not_ws_eq_false last hws]
      rw [hfil, List.append_nil]
    · have hline : dropTrailingWsChunk line = line := by
        simp [dropTrailingWsChunk, hl, hws]
      rw [hline]

/-- A dropped whitespace tail chunk: appending it and trimming it back
is the identity. -/
theorem dropTrailingWs_concat_ws (line : List (List Char)) (piece : List Char)
    (h : piece.all isPyWs = true) :
    dropTrailingWsChunk (line ++ [piece]) = line := by
  simp [dropTrailingWsChunk, List.getLast?_concat, h, List.dropLast_concat]

/-- The flattened text of a line of nonempty uniform chunks with no two
adjacent words has exactly the line's word chunks as tokens. -/
theorem tokensList_flatten_line :
    ∀ line : List (List Char),
      (∀ r ∈ line, r ≠ []) →
      (∀ r ∈ line, (∀ c ∈ r, isPyWs c = true) ∨ (∀ c ∈ r, isPyWs c = false)) →
      List.Chain' (fun x y => (x.any fun c => !isPyWs c) = true →
        (y.any fun c => !isPyWs c) = false) line →
      tokensList line.flatten = wordChunks line := by
  intro line
  induction line with
  | nil => intro _ _ _; rfl
  | cons r rest ih =>
    intro hne hpure hchain
    have hrne : r ≠ [] := hne r (List.mem_cons_self r rest)
    have hrestne : ∀ x ∈ rest, x ≠ [] := fun x hx => hne x (List.mem_cons_of_mem r hx)
    have hrestpure := fun x hx => hpure x (List.mem_cons_of_mem r hx)
    have hrestchain : List.Chain' _ rest := (List.chain'_cons'.mp hchain).2
    rcases hpure r (List.mem_cons_self r rest) with hws | hwd
    · -- whitespace run: contributes no token and no word chunk
      rw [List.flatten_cons, tokensList_ws_append r (fun c hc => hws c hc) rest.flatten,
        ih hrestne hrestpure hrestchain, wordChunks, wordChunks, List.filter_cons]
      rw [any_not_ws_eq_false r (List.all_eq_true.mpr hws)]
      rfl
    · -- word run
      have hany : (r.any fun c => !isPyWs c) = true := by
        cases r with
        | nil => exact absurd rfl hrne
        | cons x xs =>
          rw [List.any_eq_true]
          exact ⟨x, List.mem_cons_self x xs, by rw [hwd x (List.mem_cons_self x xs)]; rfl⟩
      cases rest with
      | nil =>
        rw [List.flatten_cons, List.flatten_nil, tokensList,
          tokensGo_word_append r (fun c hc => hwd c hc) [] [], List.nil_append, tokensGo_nil]
        have : r.isEmpty = false := by
          cases r with
          | nil => exact absurd rfl hrne
          | cons x xs => rfl
        rw [this, wordChunks, List.filter_cons, hany]
        rfl
      | cons r2 rest2 =>
        have hr2ws : ∀ c ∈ r2, isPyWs c = true := by
          have hrel := (List.chain'_cons'.mp hchain).1 r2 (by rfl)
          have hr2 := hrel hany
          intro c hc
          rw [List.any_eq_false] at hr2
          have := hr2 c hc
          cases hv : isPyWs c
          · rw [hv] at this; simp at this
          · rfl
        cases hr2c : r2 with
        | nil => exact absurd hr2c (hrestne r2 (List.mem_cons_self r2 rest2))
        | cons c2 r2tail =>
          rw [List.flatten_cons, List.flatten_cons]
          subst hr2c
          rw [List.cons_append, tokensList,
            tokensGo_word_append r (fun c hc => hwd c hc) [] _, List.nil_append,
            tokensGo_ws r c2 _ (hr2ws c2 (List.mem_cons_self c2 r2tail))]
          have hrE : r.isEmpty = false := by
            cases r with
            | nil => exact absurd rfl hrne
            | cons x xs => rfl
          rw [hrE]
          have hih := ih hrestne hrestpure hrestchain
          rw [List.flatten_cons, List.cons_append] at hih
          have h2 : tokensGo [] (r2tail ++ rest2.flatten)
              = tokensList (c2 :: (r2tail ++ rest2.flatten)) := by
            rw [tokensList, tokensGo_ws [] c2 _ (hr2ws c2 (List.mem_cons_self c2 r2tail))]
            rfl
          simp only [Bool.false_eq_true, if_false]
          rw [h2, hih]
          simp only [wordChunks, List.filter_cons, hany, if_true,
            any_not_ws_eq_false (c2 :: r2tail) (List.all_eq_true.mpr hr2ws)]
          rfl

/-- A nonempty all-visible chunk holds a visible character. -/
theorem any_not_ws_of_word (r : List Char) (hne : r ≠ [])
    (h : ∀ c ∈ r, isPyWs c = false) : (r.any fun c => !isPyWs c) = true := by
  cases r with
  | nil => exact absurd rfl hne
  | cons x xs =>
    rw [List.any_eq_true]
    exact ⟨x, List.mem_cons_self x xs, by rw [h x (List.mem_cons_self x xs)]; rfl⟩

/-- A uniform chunk wider than the width must be whitespace (words are
bounded by the width). -/
theorem all_ws_of_wide (width : Nat) (r : List Char) (hne : r ≠ [])
    (hpure : (∀ c ∈ r, isPyWs c = true) ∨ (∀ c ∈ r, isPyWs c = false))
    (hbound : (r.any fun c => !isPyWs c) = true → r.length ≤ width)
    (hlen : width < r.length) : ∀ c ∈ r, isPyWs c = true := by
  rcases hpure with h | h
  · exact h
  · exfalso
    have := hbound (any_not_ws_of_word r hne h)
    omega

/-- The measure is additive. -/
theorem chunkMeasure_append (a b : List (List Char)) :
    chunkMeasure (a ++ b) = chunkMeasure a + chunkMeasure b := by
  simp [chunkMeasure]
  omega

/-- The trimmed line is contained in the untrimmed one. -/
theorem dropTrailingWs_sub (line : List (List Char)) :
    ∀ r ∈ dropTrailingWsChunk line, r ∈ line := by
  intro r hr
  rcases hl : line.getLast? with _ | last
  · have he : dropTrailingWsChunk line = line := by
      simp [dropTrailingWsChunk, hl]
    rwa [he] at hr
  · by_cases hws : last.all isPyWs = true
    · have he : dropTrailingWsChunk line = line.dropLast := by
        simp [dropTrailingWsChunk, hl, hws]
      rw [he] at hr
      exact (List.dropLast_sublist line).mem hr
    · have he : dropTrailingWsChunk line = line := by
        simp [dropTrailingWsChunk, hl, hws]
      rwa [he] at hr

/-- Trimming the line keeps its adjacency chain. -/
theorem dropTrailingWs_chain {R : List Char → List Char → Prop} (line : List (List Char))
    (h : List.Chain' R line) : List.Chain' R (dropTrailingWsChunk line) := by
  rcases hl : line.getLast? with _ | last
  · have he : dropTrailingWsChunk line = line := by
      simp [dropTrailingWsChunk, hl]
    rwa [he]
  · by_cases hws : last.all isPyWs = true
    · have he : dropTrailingWsChunk line = line.dropLast := by
        simp [dropTrailingWsChunk, hl, hws]
      rw [he]
      exact h.init
    · have he : dropTrailingWsChunk line = line := by
        simp [dropTrailingWsChunk, hl, hws]
      rwa [he]

/-- One wrapStep: the line and the remainder partition the words, the
line's flattened text has the line's words as tokens, the remainder is
strictly smaller, and the remainder keeps every invariant. -/
theorem wrapStep_spec (width : Nat) (chunks : List (List Char))
    (hw : 1 ≤ width) (hchne : chunks ≠ [])
    (hne : ∀ r ∈ chunks, r ≠ [])
    (hpure : ∀ r ∈ chunks, (∀ c ∈ r, isPyWs c = true) ∨ (∀ c ∈ r, isPyWs c = false))
    (hchain : List.Chain' (fun x y => (x.any fun c => !isPyWs c) = true →
      (y.any fun c => !isPyWs c) = false) chunks)
    (hbound : ∀ r ∈ chunks, (r.any fun c => !isPyWs c) = true → r.length ≤ width) :
    (wordChunks (wrapStep width chunks).1 ++ wordChunks (wrapStep width chunks).2
      = wordChunks chunks) ∧
    tokensList ((wrapStep width chunks).1.flatten) = wordChunks (wrapStep width chunks).1 ∧
    chunkMeasure (wrapStep width chunks).2 < chunkMeasure chunks ∧
    (∀ r ∈ (wrapStep width chunks).2, r ≠ []) ∧
    (∀ r ∈ (wrapStep width chunks).2,
      (∀ c ∈ r, isPyWs c = true) ∨ (∀ c ∈ r, isPyWs c = false)) ∧
    List.Chain' (fun x y => (x.any fun c => !isPyWs c) = true →
      (y.any fun c => !isPyWs c) = false) (wrapStep width chunks).2 ∧
    (∀ r ∈ (wrapStep width chunks).2,
      (r.any fun c => !isPyWs c) = true → r.length ≤ width) := by
  have hsplit := popChunks_append width chunks 0
  set p := popChunks width 0 chunks with hp
  have hmemcur : ∀ r ∈ p.1, r ∈ chunks := by
    intro r hr
    rw [← hsplit]
    exact List.mem_append.mpr (Or.inl hr)
  have hmemrest : ∀ r ∈ p.2, r ∈ chunks := by
    intro r hr
    rw [← hsplit]
    exact List.mem_append.mpr (Or.inr hr)
  have hchaincur : List.Chain' (fun x y => (x.any fun c => !isPyWs c) = true →
      (y.any fun c => !isPyWs c) = false) p.1 := by
    rw [← hsplit] at hchain
    exact hchain.left_of_append
  have hchainrest : List.Chain' (fun x y => (x.any fun c => !isPyWs c) = true →
      (y.any fun c => !isPyWs c) = false) p.2 := by
    rw [← hsplit] at hchain
    exact hchain.right_of_append
  have hcurtokens : ∀ line : List (List Char), (∀ r ∈ line, r ∈ p.1) →
      List.Chain' (fun x y => (x.any fun c => !isPyWs c) = true →
        (y.any fun c => !isPyWs c) = false) line →
      tokensList line.flatten = wordChunks line := by
    intro line hsub hch
    exact tokensList_flatten_line line
      (fun r hr => hne r (hmemcur r (hsub r hr)))
      (fun r hr => hpure r (hmemcur r (hsub r hr)))
      hch
  rcases hrest : p.2 with _ | ⟨r, rs⟩
  · -- everything was popped
    have hs : wrapStep width chunks = (dropTrailingWsChunk p.1, []) := by
      rw [wrapStep]
      rw [← hp, hrest]
    rw [hs]
    have hcur : p.1 = chunks := by
      rw [← hsplit, hrest, List.append_nil]
    constructor
    · rw [dropTrailingWs_wordChunks, hcur]
      simp [wordChunks]
    refine ⟨?_, ?_, by simp, by simp, by simp, by simp⟩
    · exact hcurtokens _ (dropTrailingWs_sub p.1) (dropTrailingWs_chain p.1 hchaincur)
    · rcases chunks with _ | ⟨c, cs⟩
      · exact absurd rfl hchne
      · simp [chunkMeasure]
  · by_cases hlen : width < r.length
    · -- the long-chunk handler fires; the over-wide chunk is whitespace
      have hrmem : r ∈ chunks := hmemrest r (by rw [hrest]; exact List.mem_cons_self r rs)
      have hrws : ∀ c ∈ r, isPyWs c = true :=
        all_ws_of_wide width r (hne r hrmem) (hpure r hrmem) (hbound r hrmem) hlen
      obtain ⟨endIdx, heq, hle, hpos⟩ := handleLongWord_spec width (lineLen p.1) r
      have hpiecews : (r.take endIdx).all isPyWs = true :=
        List.all_eq_true.mpr (fun c hc => hrws c (List.mem_of_mem_take hc))
      have hremws : ∀ c ∈ r.drop endIdx, isPyWs c = true :=
        fun c hc => hrws c (List.mem_of_mem_drop hc)
      have hs : wrapStep width chunks =
          (dropTrailingWsChunk (p.1 ++ [r.take endIdx]), r.drop endIdx :: rs) := by
        rw [wrapStep]
        rw [← hp, hrest]
        simp only [if_pos hlen, heq]
      have hs1 : dropTrailingWsChunk (p.1 ++ [r.take endIdx]) = p.1 :=
        dropTrailingWs_concat_ws p.1 _ hpiecews
      rw [hs, hs1]
      have hremlt : endIdx ≤ width := hle hw
      have hremne : r.drop endIdx ≠ [] := by
        apply List.ne_nil_of_length_pos
        rw [List.length_drop]
        omega
      have hrsChain : List.Chain' (fun x y => (x.any fun c => !isPyWs c) = true →
          (y.any fun c => !isPyWs c) = false) rs := by
        rw [hrest] at hchainrest
        exact (List.chain'_cons'.mp hchainrest).2
      have hremany : ((r.drop endIdx).any fun c => !isPyWs c) = false :=
        any_not_ws_eq_false _ (List.all_eq_true.mpr hremws)
      have hrany : (r.any fun c => !isPyWs c) = false :=
        any_not_ws_eq_false _ (List.all_eq_true.mpr hrws)
      refine ⟨?_, ?_, ?_, ?_, ?_, ?_, ?_⟩
      · -- word partition
        show wordChunks p.1 ++ wordChunks (List.drop endIdx r :: rs) = wordChunks chunks
        rw [← hsplit, hrest]
        simp only [wordChunks, List.filter_append, List.filter_cons, hrany, hremany,
          Bool.false_eq_true, if_false]
      · exact hcurtokens _ (fun x hx => hx) hchaincur
      · -- measure decreases
        show chunkMeasure (List.drop endIdx r :: rs) < chunkMeasure chunks
        rcases hcur1 : p.1 with _ | ⟨x, xs⟩
        · have hpall : p.2 = chunks := by
            rw [← hsplit, hcur1, List.nil_append]
          have hepos : 1 ≤ endIdx := by
            apply hpos hw
            rw [hcur1]
            rfl
          rw [← hpall, hrest]
          simp only [chunkMeasure, List.map_cons, List.sum_cons, List.length_cons,
            List.length_drop]
          omega
        · have : chunkMeasure chunks = chunkMeasure p.1 + chunkMeasure p.2 := by
            rw [← hsplit, chunkMeasure_append]
          rw [this, hcur1, hrest]
          simp only [chunkMeasure, List.map_cons, List.sum_cons, List.length_cons,
            List.length_drop]
          omega
      · intro x hx
        rcases List.mem_cons.mp hx with h | h
        · subst h; exact hremne
        · exact hne x (hmemrest x (by rw [hrest]; exact List.mem_cons_of_mem r h))
      · intro x hx
        rcases List.mem_cons.mp hx with h | h
        · subst h; exact Or.inl hremws
        · exact hpure x (hmemrest x (by rw [hrest]; exact List.mem_cons_of_mem r h))
      · rw [List.chain'_cons']
        refine ⟨?_, hrsChain⟩
        intro y _ hcontra
        rw [hremany] at hcontra
        exact absurd hcontra (by simp)
      · intro x hx
        rcases List.mem_cons.mp hx with h | h
        · subst h
          intro hcontra
          rw [hremany] at hcontra
          exact absurd hcontra (by simp)
        · exact hbound x (hmemrest x (by rw [hrest]; exact List.mem_cons_of_mem r h))
    · --ined chunk fits entirely on a later line
      have hs : wrapStep width chunks = (dropTrailingWsChunk p.1, r :: rs) := by
        rw [wrapStep]
        rw [← hp, hrest]
        simp only [if_neg hlen]
      rw [hs]
      have hrestchain : List.Chain' (fun x y => (x.any fun c => !isPyWs c) = true →
          (y.any fun c => !isPyWs c) = false) (r :: rs) := by
        rw [hrest] at hchainrest
        exact hchainrest
      refine ⟨?_, ?_, ?_, ?_, ?_, hrestchain, ?_⟩
      · show wordChunks (dropTrailingWsChunk p.1) ++ wordChunks (r :: rs) = wordChunks chunks
        rw [dropTrailingWs_wordChunks, ← hsplit, hrest]
        simp only [wordChunks, List.filter_append]
      · exact hcurtokens _ (dropTrailingWs_sub p.1) (dropTrailingWs_chain p.1 hchaincur)
      · show chunkMeasure (r :: rs) < chunkMeasure chunks
        rcases hcur1 : p.1 with _ | ⟨x, xs⟩
        · exfalso
          have hpall : p.2 = chunks := by
            rw [← hsplit, hcur1, List.nil_append]
          rcases hch : chunks with _ | ⟨d, ds⟩
          · exact hchne hch
          · have hhead : width < d.length := by
              apply popChunks_nil_head width d ds
              rw [← hch, ← hp, hcur1]
            have : r = d := by
              have := hpall
              rw [hrest, hch] at this
              exact (List.cons.injEq _ _ _ _).mp this |>.1
            rw [this] at hlen
            exact hlen hhead
        · have : chunkMeasure chunks = chunkMeasure p.1 + chunkMeasure p.2 := by
            rw [← hsplit, chunkMeasure_append]
          rw [this, hcur1, ← hrest]
          simp only [chunkMeasure, List.map_cons, List.sum_cons, List.length_cons]
          omega
      · intro x hx
        exact hne x (hmemrest x (by rw [hrest]; exact hx))
      · intro x hx
        exact hpure x (hmemrest x (by rw [hrest]; exact hx))
      · intro x hx
        exact hbound x (hmemrest x (by rw [hrest]; exact hx))

/-- The measure of a cons. -/
theorem chunkMeasure_cons (c : List Char) (cs : List (List Char)) :
    chunkMeasure (c :: cs) = c.length + chunkMeasure cs + 1 := by
  simp [chunkMeasure]
  omega

/-- The line filler preserves the word sequence: the tokens of its
lines, in order, are exactly the word chunks of its input. -/
theorem wrapGo_tokens :
    ∀ (fuel : Nat) (chunks : List (List Char)) (flag : Bool) (width : Nat),
      1 ≤ width →
      chunkMeasure chunks < fuel →
      (∀ r ∈ chunks, r ≠ []) →
      (∀ r ∈ chunks, (∀ c ∈ r, isPyWs c = true) ∨ (∀ c ∈ r, isPyWs c = false)) →
      List.Chain' (fun x y => (x.any fun c => !isPyWs c) = true →
        (y.any fun c => !isPyWs c) = false) chunks →
      (∀ r ∈ chunks, (r.any fun c => !isPyWs c) = true → r.length ≤ width) →
      ((wrapGo fuel width flag chunks).map tokensList).flatten = wordChunks chunks := by
  intro fuel
  induction fuel with
  | zero =>
    intro chunks flag width _ hfuel _ _ _ _
    omega
  | succ fuel ih =>
    intro chunks flag width hw hfuel hne hpure hchain hbound
    rcases chunks with _ | ⟨c, cs⟩
    · rfl
    · by_cases hdrop : (flag && c.all isPyWs) = true
      · have hcws : c.all isPyWs = true := by
          revert hdrop
          cases c.all isPyWs <;> simp
        have hwcs : wordChunks (c :: cs) = wordChunks cs := by
          simp [wordChunks, List.filter_cons, any_not_ws_eq_false c hcws]
        rcases cs with _ | ⟨d, ds⟩
        · have hgo : wrapGo (fuel + 1) width flag [c] = [] := by
            simp [wrapGo, hdrop]
          rw [hgo, hwcs]
          rfl
        · have hgo : wrapGo (fuel + 1) width flag (c :: d :: ds) =
              (if (wrapStep width (d :: ds)).1.isEmpty then
                wrapGo fuel width flag (wrapStep width (d :: ds)).2
              else (wrapStep width (d :: ds)).1.flatten ::
                wrapGo fuel width true (wrapStep width (d :: ds)).2) := by
            simp only [wrapGo, hdrop, if_true]
          have hneT : ∀ r ∈ d :: ds, r ≠ [] :=
            fun r hr => hne r (List.mem_cons_of_mem c hr)
          have hpureT : ∀ r ∈ d :: ds, (∀ x ∈ r, isPyWs x = true) ∨ (∀ x ∈ r, isPyWs x = false) :=
            fun r hr => hpure r (List.mem_cons_of_mem c hr)
          have hchainT := (List.chain'_cons'.mp hchain).2
          have hboundT : ∀ r ∈ d :: ds, (r.any fun x => !isPyWs x) = true → r.length ≤ width :=
            fun r hr => hbound r (List.mem_cons_of_mem c hr)
          obtain ⟨hpart, htok, hmeas, hne2, hpure2, hchain2, hbound2⟩ :=
            wrapStep_spec width (d :: ds) hw (by simp) hneT hpureT hchainT hboundT
          have hmeas2 : chunkMeasure (wrapStep width (d :: ds)).2 < fuel := by
            rw [chunkMeasure_cons] at hfuel
            omega
          by_cases hE : (wrapStep width (d :: ds)).1.isEmpty = true
          · rw [hgo, if_pos hE, ih _ flag width hw hmeas2 hne2 hpure2 hchain2 hbound2, hwcs]
            have h1 : (wrapStep width (d :: ds)).1 = [] := List.isEmpty_iff.mp hE
            rw [h1] at hpart
            rw [show wordChunks ([] : List (List Char)) = [] from rfl,
              List.nil_append] at hpart
            exact hpart
          · rw [hgo, if_neg hE, List.map_cons, List.flatten_cons, htok,
              ih _ true width hw hmeas2 hne2 hpure2 hchain2 hbound2, hwcs, hpart]
      · have hgo : wrapGo (fuel + 1) width flag (c :: cs) =
            (if (wrapStep width (c :: cs)).1.isEmpty then
              wrapGo fuel width flag (wrapStep width (c :: cs)).2
            else (wrapStep width (c :: cs)).1.flatten ::
              wrapGo fuel width true (wrapStep width (c :: cs)).2) := by
          simp only [wrapGo, hdrop, Bool.false_eq_true, if_false]
        obtain ⟨hpart, htok, hmeas, hne2, hpure2, hchain2, hbound2⟩ :=
          wrapStep_spec width (c :: cs) hw (by simp) hne hpure hchain hbound
        have hmeas2 : chunkMeasure (wrapStep width (c :: cs)).2 < fuel := by
          omega
        by_cases hE : (wrapStep width (c :: cs)).1.isEmpty = true
        · rw [hgo, if_pos hE, ih _ flag width hw hmeas2 hne2 hpure2 hchain2 hbound2]
          have h1 : (wrapStep width (c :: cs)).1 = [] := List.isEmpty_iff.mp hE
          rw [h1] at hpart
          rw [show wordChunks ([] : List (List Char)) = [] from rfl,
            List.nil_append] at hpart
          exact hpart
        · rw [hgo, if_neg hE, List.map_cons, List.flatten_cons, htok,
            ih _ true width hw hmeas2 hne2 hpure2 hchain2 hbound2, hpart]

/-- Joining the lines with newlines reassembles exactly the lines'
tokens. -/
theorem tokensList_intercalate_nl (lines : List (List Char)) :
    tokensList (List.intercalate ['\n'] lines) = (lines.map tokensList).flatten :=
  tokensList_intercalate '\n' (by decide) lines


/-- Tab expansion introduces only spaces: every output character is a
space or a character of the input. -/
theorem mem_expandtabsGo (l : List Char) :
    ∀ (col : Nat) (x : Char), x ∈ expandtabsGo col l → x = ' ' ∨ x ∈ l := by
  induction l with
  | nil =>
    intro col x hx
    simp [expandtabsGo] at hx
  | cons c cs ih =>
    intro col x hx
    rw [expandtabsGo] at hx
    by_cases ht : c = '\t'
    · rw [if_pos ht] at hx
      rw [List.mem_append] at hx
      rcases hx with hx | hx
      · exact Or.inl (List.eq_of_mem_replicate hx)
      · rcases ih _ x hx with h | h
        · exact Or.inl h
        · exact Or.inr (List.mem_cons_of_mem c h)
    · rw [if_neg ht] at hx
      by_cases hnl : (c = '\n' || c = '\r') = true
      · rw [if_pos hnl] at hx
        rcases List.mem_cons.mp hx with h | h
        · exact Or.inr (h ▸ List.mem_cons_self c cs)
        · rcases ih _ x h with h2 | h2
          · exact Or.inl h2
          · exact Or.inr (List.mem_cons_of_mem c h2)
      · rw [if_neg hnl] at hx
        rcases List.mem_cons.mp hx with h | h
        · exact Or.inr (h ▸ List.mem_cons_self c cs)
        · rcases ih _ x h with h2 | h2
          · exact Or.inl h2
          · exact Or.inr (List.mem_cons_of_mem c h2)

/-- Whitespace normalisation keeps a hyphen-free text hyphen-free. -/
theorem mungeList_no_dash (l : List Char) (hdash : ∀ c ∈ l, ¬(c = '-')) :
    ∀ c ∈ mungeList l, ¬(c = '-') := by
  intro c hc hcd
  subst hcd
  unfold mungeList at hc
  rw [List.mem_map] at hc
  obtain ⟨d, hd, hde⟩ := hc
  have hdd : d = '-' := by
    by_cases hdw : isPyWs d = true
    · rw [if_pos hdw] at hde
      exact absurd hde.symm (by decide)
    · rw [if_neg hdw] at hde
      exact hde
  subst hdd
  rcases mem_expandtabsGo l 0 '-' hd with h | h
  · exact absurd h (by decide)
  · exact hdash '-' h rfl

/-- The visible runs of a text are exactly its tokens. -/
theorem wordChunks_runsList (m : List Char) :
    wordChunks (runsList m) = tokensList m := by
  cases m with
  | nil => rfl
  | cons c rest =>
    rw [runsList]
    have := runsGo_wordChunks rest (isPyWs c) [c] (by simp)
      (by intro x hx; simp at hx; rw [hx])
    rw [this]
    by_cases hc : isPyWs c = true
    · rw [if_pos hc]
      show _ = tokensGo [] (c :: rest)
      rw [tokensGo, if_pos hc]
      simp
    · rw [if_neg hc]
      show _ = tokensGo [] (c :: rest)
      rw [tokensGo, if_neg hc]
      rfl

/-- Every run of a text is nonempty. -/
theorem runsList_ne_nil (m : List Char) : ∀ r ∈ runsList m, r ≠ [] := by
  cases m with
  | nil => intro r hr; simp [runsList] at hr
  | cons c rest =>
    intro r hr
    exact runsGo_ne_nil rest (isPyWs c) [c] (by simp) r hr

/-- Every run of a text is all-whitespace or all-visible. -/
theorem runsList_pure (m : List Char) :
    ∀ r ∈ runsList m, (∀ c ∈ r, isPyWs c = true) ∨ (∀ c ∈ r, isPyWs c = false) := by
  cases m with
  | nil => intro r hr; simp [runsList] at hr
  | cons c rest =>
    intro r hr
    exact runsGo_pure rest (isPyWs c) [c]
      (by intro x hx; simp at hx; rw [hx]) r hr

/-- No two consecutive runs are both visible. -/
theorem runsList_chain (m : List Char) :
    List.Chain'
      (fun x y => (x.any fun c => !isPyWs c) = true → (y.any fun c => !isPyWs c) = false)
      (runsList m) := by
  cases m with
  | nil => simp [runsList]
  | cons c rest =>
    exact runsGo_chain rest (isPyWs c) [c]
      (by intro x hx; simp at hx; rw [hx])

/-- textwrap.fill preserves the tokens of a hyphen-free text whose
tokens fit in the width. -/
theorem tokensList_pyFill (width : Nat) (l : List Char)
    (hw : 1 ≤ width)
    (hdash : ∀ c ∈ l, ¬(c = '-'))
    (hbound : ∀ t ∈ tokensList l, t.length ≤ width) :
    tokensList (pyFillList width l) = tokensList l := by
  have hmdash := mungeList_no_dash l hdash
  have hchunks : splitChunksList (mungeList l) = runsList (mungeList l) :=
    (chunksGo_no_dash (mungeList l) hmdash).2.2 []
  have hwc : wordChunks (runsList (mungeList l)) = tokensList l := by
    rw [wordChunks_runsList, tokensList_munge]
  have hbound2 : ∀ r ∈ runsList (mungeList l),
      (r.any fun c => !isPyWs c) = true → r.length ≤ width := by
    intro r hr hvis
    apply hbound
    rw [← hwc]
    exact List.mem_filter.mpr ⟨hr, hvis⟩
  unfold pyFillList pyWrapList
  rw [tokensList_intercalate_nl]
  simp only [hchunks]
  rw [wrapGo_tokens (chunkMeasure (runsList (mungeList l)) + 1)
    (runsList (mungeList l)) false width hw (by omega)
    (runsList_ne_nil (mungeList l)) (runsList_pure (mungeList l))
    (runsList_chain (mungeList l)) hbound2]
  exact hwc

/-- The line scanner's first line extends the pending prefix. -/
theorem splitNlGo_first_line (l : List Char) :
    ∀ accL : List Char, ∃ line ∈ splitNlGo accL l, accL.length ≤ line.length := by
  induction l with
  | nil =>
    intro accL
    exact ⟨accL, by simp [splitNlGo], le_refl _⟩
  | cons c rest ih =>
    intro accL
    by_cases hc : c = '\n'
    · rw [splitNlGo, if_pos hc]
      exact ⟨accL, List.mem_cons_self _ _, le_refl _⟩
    · rw [splitNlGo, if_neg hc]
      obtain ⟨line, hm, hl⟩ := ih (accL ++ [c])
      refine ⟨line, hm, ?_⟩
      rw [List.length_append] at hl
      omega

/-- A token never outgrows the line it lives on: if every line of the
scanner is at most n long, every token is too. -/
theorem tokensGo_bound_of_lines (n : Nat) (l : List Char) :
    ∀ (accL accT : List Char), accT.length ≤ accL.length →
      (∀ line ∈ splitNlGo accL l, line.length ≤ n) →
      ∀ t ∈ tokensGo accT l, t.length ≤ n := by
  induction l with
  | nil =>
    intro accL accT hlen hlines t ht
    rw [tokensGo_nil] at ht
    by_cases he : accT.isEmpty = true
    · rw [if_pos he] at ht
      simp at ht
    · rw [if_neg he] at ht
      simp at ht
      subst ht
      have := hlines accL (by simp [splitNlGo])
      omega
  | cons c rest ih =>
    intro accL accT hlen hlines t ht
    by_cases hnl : c = '\n'
    · have hws : isPyWs c = true := by rw [hnl]; decide
      rw [tokensGo_ws accT c rest hws] at ht
      have hlines2 : ∀ line ∈ splitNlGo [] rest, line.length ≤ n := by
        intro line hl
        apply hlines
        rw [splitNlGo, if_pos hnl]
        exact List.mem_cons_of_mem _ hl
      have haccL : accL.length ≤ n := by
        apply hlines
        rw [splitNlGo, if_pos hnl]
        exact List.mem_cons_self _ _
      rw [List.mem_append] at ht
      rcases ht with h | h
      · by_cases he : accT.isEmpty = true
        · rw [if_pos he] at h
          simp at h
        · rw [if_neg he] at h
          simp at h
          subst h
          omega
      · exact ih [] [] (le_refl 0) hlines2 t h
    · have hlines2 : ∀ line ∈ splitNlGo (accL ++ [c]) rest, line.length ≤ n := by
        intro line hl
        apply hlines
        rw [splitNlGo, if_neg hnl]
        exact hl
      by_cases hws : isPyWs c = true
      · rw [tokensGo_ws accT c rest hws] at ht
        have haccL : accL.length + 1 ≤ n := by
          obtain ⟨line, hm, hlb⟩ := splitNlGo_first_line rest (accL ++ [c])
          have := hlines2 line hm
          rw [List.length_append, List.length_singleton] at hlb
          omega
        rw [List.mem_append] at ht
        rcases ht with h | h
        · by_cases he : accT.isEmpty = true
          · rw [if_pos he] at h
            simp at h
          · rw [if_neg he] at h
            simp at h
            subst h
            omega
        · exact ih (accL ++ [c]) [] (by simp) hlines2 t h
      · rw [tokensGo_not_ws accT c rest (by revert hws; cases isPyWs c <;> simp)] at ht
        refine ih (accL ++ [c]) (accT ++ [c]) ?_ hlines2 t ht
        rw [List.length_append, List.length_append]
        omega

/-- linesLe bounds every token of the string. -/
theorem tokens_bound_of_linesLe (n : Nat) (s : String) (h : linesLe n s = true) :
    ∀ t ∈ tokensList s.data, t.length ≤ n := by
  have hlines : ∀ line ∈ splitNlGo [] s.data, line.length ≤ n := by
    unfold linesLe at h
    rw [List.all_eq_true] at h
    intro line hl
    have := h line hl
    simpa using this
  exact tokensGo_bound_of_lines n s.data [] [] (le_refl 0) hlines

/-- The empty text has no tokens. -/
theorem tokensList_nil : tokensList [] = [] := rfl

/-- Tokens split across a boundary whose left side ends in whitespace
(or is empty). -/
theorem tokensList_append_endsWs (a x : List Char)
    (h : a = [] ∨ ∃ b c, a = b ++ [c] ∧ isPyWs c = true) :
    tokensList (a ++ x) = tokensList a ++ tokensList x := by
  rcases h with h | ⟨b, c, hb, hc⟩
  · subst h
    rfl
  · subst hb
    rw [List.append_assoc, List.singleton_append, tokensList_split_ws b c x hc,
      tokensList_split_ws b c [] hc]
    simp [tokensList_nil]

/-- A trailing whitespace run adds no token. -/
theorem tokensList_append_wsrun (x run : List Char) (h : ∀ c ∈ run, isPyWs c = true) :
    tokensList (x ++ run) = tokensList x :=
  tokensGo_append_ws run h x []

/-- The paragraphing loop neither loses nor merges tokens: provided the
formatted prefix and the pending paragraph each end in whitespace (or are
empty), the tokens of the result are the prefix's, the paragraph's and the
remaining sentences' tokens in order. -/
theorem paraGo_tokens (ss : List (List Char)) :
    ∀ (i : Nat) (fmt para : List Char),
      (fmt = [] ∨ ∃ b c, fmt = b ++ [c] ∧ isPyWs c = true) →
      (para = [] ∨ ∃ b c, para = b ++ [c] ∧ isPyWs c = true) →
      tokensList (paraGo i fmt para ss)
        = tokensList fmt ++ tokensList para ++ (ss.map tokensList).flatten := by
  induction ss with
  | nil =>
    intro i fmt para hf hp
    rw [paraGo]
    by_cases hpe : para.isEmpty = true
    · rw [if_pos hpe]
      have hp0 : para = [] := List.isEmpty_iff.mp hpe
      subst hp0
      simp [tokensList_nil]
    · rw [if_neg hpe]
      rw [tokensList_append_endsWs fmt _ hf, tokensList_pyStrip]
      simp
  | cons s rest ih =>
    intro i fmt para hf hp
    have hnlws : ∀ c ∈ ['\n', '\n'], isPyWs c = true := by
      intro c hc
      simp at hc
      subst hc
      decide
    have hpara1 : tokensList (para ++ (s ++ [' '])) = tokensList para ++ tokensList s := by
      rw [tokensList_append_endsWs para _ hp,
        tokensList_append_wsrun s [' '] (by intro c hc; simp at hc; subst hc; decide)]
    simp only [paraGo]
    by_cases hb : breakHere i s = true
    · rw [if_pos hb]
      rw [ih (i + 1) _ [] (Or.inr ⟨fmt ++ pyStripList (para ++ s ++ [' ']) ++ ['\n'], '\n',
        by simp, by decide⟩) (Or.inl rfl)]
      have h3 : tokensList (pyStripList (para ++ s ++ [' ']))
          = tokensList para ++ tokensList s := by
        rw [tokensList_pyStrip, List.append_assoc]
        exact hpara1
      have hfmt2 : tokensList (fmt ++ pyStripList (para ++ s ++ [' ']) ++ ['\n', '\n'])
          = tokensList fmt ++ tokensList para ++ tokensList s := by
        rw [tokensList_append_wsrun (fmt ++ pyStripList (para ++ s ++ [' '])) ['\n', '\n'] hnlws,
          tokensList_append_endsWs fmt _ hf, h3, ← List.append_assoc]
      rw [hfmt2]
      simp [tokensList_nil, List.append_assoc]
    · rw [if_neg hb]
      rw [ih (i + 1) fmt _ hf (Or.inr ⟨para ++ s, ' ', by simp, by decide⟩)]
      rw [← List.append_assoc] at hpara1
      rw [hpara1]
      simp [List.append_assoc]

/-- The paragraphing pass preserves the sentences' tokens in order. -/
theorem paragraphPass_tokens (ss : List (List Char)) :
    tokensList (paragraphPass ss) = (ss.map tokensList).flatten := by
  unfold paragraphPass
  rw [paraGo_tokens ss 0 [] [] (Or.inl rfl) (Or.inl rfl)]
  rfl

/-- The formatting pipeline preserves the token sequence of an
already-capitalized, 80-column, hyphen-free input. -/
theorem tokensList_formatPipeline (s : String)
    (h1 : alreadyCapitalized s = true)
    (h2 : linesLe 80 s = true)
    (h5 : noDash s = true) :
    tokensList (formatPipeline s.data) = tokensList s.data := by
  unfold alreadyCapitalized at h1
  rw [Bool.and_eq_true] at h1
  obtain ⟨hc1, hc2⟩ := h1
  rw [decide_eq_true_eq] at hc1 hc2
  have htokT : tokensList (pyStripList s.data) = tokensList s.data := tokensList_pyStrip s.data
  have hsentT : ((splitSentencesList (pyStripList s.data)).map tokensList).flatten
      = tokensList (pyStripList s.data) := by
    have := sentGo_tokens (pyStripList s.data) false [] (fun _ => rfl)
    simpa [splitSentencesList] using this
  have ht2 : tokensList (List.intercalate [' '] (splitSentencesList (pyStripList s.data)))
      = tokensList s.data := by
    rw [tokensList_intercalate ' ' (by decide), hsentT, htokT]
  have hdash2 : ∀ c ∈ List.intercalate [' '] (splitSentencesList (pyStripList s.data)),
      ¬(c = '-') := by
    intro c hc hcd
    subst hcd
    have hmem : ('-' : Char) ∈
        (tokensList (List.intercalate [' '] (splitSentencesList (pyStripList s.data)))).flatten :=
      mem_tokensGo_flatten _ [] '-' (by decide) hc
    rw [ht2] at hmem
    have hm2 := tokensGo_flatten_subset s.data [] '-' hmem
    rcases hm2 with h | h
    · simp at h
    · unfold noDash at h5
      rw [List.all_eq_true] at h5
      have := h5 '-' h
      simp at this
  have hbound2 : ∀ t ∈ tokensList (List.intercalate [' '] (splitSentencesList (pyStripList s.data))),
      t.length ≤ 80 := by
    rw [ht2]
    exact tokens_bound_of_linesLe 80 s h2
  have hfill : tokensList (pyFillList 80
        (List.intercalate [' '] (splitSentencesList (pyStripList s.data))))
      = tokensList s.data := by
    rw [tokensList_pyFill 80 _ (by omega) hdash2 hbound2, ht2]
  simp only [formatPipeline]
  rw [hc1, hc2, paragraphPass_tokens]
  have hsw : ((splitSentencesList (pyFillList 80
        (List.intercalate [' '] (splitSentencesList (pyStripList s.data))))).map
          tokensList).flatten
      = tokensList (pyFillList 80
          (List.intercalate [' '] (splitSentencesList (pyStripList s.data)))) := by
    have := sentGo_tokens (pyFillList 80
        (List.intercalate [' '] (splitSentencesList (pyStripList s.data)))) false []
      (fun _ => rfl)
    simpa [splitSentencesList] using this
  rw [hsw, hfill]

/-- C7 (amended): on an input that is already capitalized, already
wrapped to at most 80 columns, a single paragraph, at most 4 sentences,
and free of hyphens, format_transcription preserves the text modulo
whitespace: the output's token sequence equals the input's.  (The
hyphen-free condition is the amendment: textwrap's break_on_hyphens may
split a hyphenated word across lines, inserting whitespace inside a
token, so the original claim fails on hyphenated input.) -/
theorem c7_idempotent_modulo_whitespace (s : String)
    (h1 : alreadyCapitalized s = true)
    (h2 : linesLe 80 s = true)
    (_h3 : hasBlankLine s = false)
    (_h4 : (splitSentences (pyStrip s)).length ≤ 4)
    (h5 : noDash s = true) :
    tokensOf (format_transcription s) = tokensOf s := by
  unfold format_transcription
  by_cases he : s = ""
  · rw [if_pos he, he]
  · rw [if_neg he]
    unfold tokensOf
    rw [show (String.mk (formatPipeline s.data)).data = formatPipeline s.data from rfl,
      tokensList_formatPipeline s h1 h2 h5]

/-- Witness for C7 (amended) at a concrete input. -/
theorem c7_idempotent_modulo_whitespace_witness :
    (alreadyCapitalized "Hello there. All good." = true ∧
     linesLe 80 "Hello there. All good." = true ∧
     hasBlankLine "Hello there. All good." = false ∧
     (splitSentences (pyStrip "Hello there. All good.")).length ≤ 4 ∧
     noDash "Hello there. All good." = true) ∧
    tokensOf (format_transcription "Hello there. All good.")
      = tokensOf "Hello there. All good." :=
  ⟨⟨by decide, by decide, by decide, by decide, by decide⟩,
    c7_idempotent_modulo_whitespace "Hello there. All good." (by decide) (by decide)
      (by decide) (by decide) (by decide)⟩

/-- The input refuting C7 as originally stated: a 71-column first line
followed by a hyphenated word; rewrapping breaks "self-test" after the
hyphen, inserting a line break inside the token. -/
def c7input : String :=
  String.mk (['B'] ++ List.replicate 70 'a' ++ ['\n'] ++ "self-test".data)

set_option maxRecDepth 8000

/-- C7 counterexample (original wording): c7input is already
capitalized, wrapped to at most 80 columns, a single paragraph and at
most 4 sentences, yet the formatter's output differs from the input
modulo whitespace: break_on_hyphens splits the token "self-test" into
"self-" and "test". -/
theorem c7_break_on_hyphens_counterexample :
    (alreadyCapitalized c7input = true ∧
     linesLe 80 c7input = true ∧
     hasBlankLine c7input = false ∧
     (splitSentences (pyStrip c7input)).length ≤ 4) ∧
    tokensOf (format_transcription c7input) ≠ tokensOf c7input := by
  decide

set_option maxRecDepth 512
